import Mathlib

/-!
Verification of the dataria_scraper repository's text, relevance, filter,
pagination, file-handling and date-validation logic against its
natural-language specification.

Strings are modelled as `List Char`; Python float arithmetic in the
relevance scoring is modelled over `ℚ`; Python's `None` is modelled with
`Option`.  All scanners mirroring `re.sub` passes are written with explicit
fuel so that they are structurally recursive and kernel-computable.
-/

/-- Python's `\s` / `str.strip` whitespace class restricted to ASCII:
space, tab, newline, carriage return, vertical tab, form feed
(`src/src/core/text_utils.py` uses `re.sub(r'\s+', ' ', ...)` and `.strip()`). -/
def isWs (c : Char) : Bool :=
  c = ' ' || c = '\t' || c = '\n' || c = '\r' || c = '\x0b' || c = '\x0c'

/-- Python's `\w` word-character class restricted to ASCII: letters, digits
and underscore. -/
def isWordCh (c : Char) : Bool :=
  ('a' ≤ c && c ≤ 'z') || ('A' ≤ c && c ≤ 'Z') || ('0' ≤ c && c ≤ '9') || c = '_'

/-- Python `str.lower` on a single character (ASCII range). -/
def pyLowerCh (c : Char) : Char :=
  if 'A' ≤ c && c ≤ 'Z' then Char.ofNat (c.toNat + 32) else c

/-- Python `str.lower` (`search_term.lower()`, `description.lower()` in
`tiktok_scraper.py`). -/
def pyLower (l : List Char) : List Char := l.map pyLowerCh

/-- Removal of trailing whitespace, the second half of Python `str.strip`. -/
def stripEnd (l : List Char) : List Char := (l.reverse.dropWhile isWs).reverse

/-- Python `str.strip()` with no argument: drop leading and trailing
whitespace. -/
def pyStrip (l : List Char) : List Char := stripEnd (l.dropWhile isWs)

/-- Scanner state machine for `re.sub(r'\s+', ' ', text)` in
`clean_text_base` (`text_utils.py` line 67): each maximal whitespace run is
replaced by a single space.  The Boolean records whether the previous
character was whitespace (in which case further whitespace is dropped). -/
def collapseGo : Bool → List Char → List Char
  | _, [] => []
  | prevWs, c :: rest =>
    if isWs c then
      if prevWs then collapseGo true rest else ' ' :: collapseGo true rest
    else c :: collapseGo false rest

/-- `re.sub(r'\s+', ' ', text)`. -/
def collapseWs (l : List Char) : List Char := collapseGo false l

/-- The final `re.sub(r'\s+', ' ', cleaned).strip()` step of
`clean_text_base`. -/
def normalizeWs (l : List Char) : List Char := pyStrip (collapseWs l)

/-- No two adjacent characters are both whitespace. -/
def noTwoWs : List Char → Bool
  | [] => true
  | [_] => true
  | a :: b :: rest => !(isWs a && isWs b) && noTwoWs (b :: rest)

/-- Decidable statement that a string is in the shape produced by
whitespace normalization: every whitespace character is a plain space, no
two adjacent characters are both whitespace, and the string neither starts
nor ends with whitespace. -/
def wsNormalizedB (l : List Char) : Bool :=
  l.all (fun c => !isWs c || c = ' ')
    && noTwoWs l
    && (match l.head? with | none => true | some c => !isWs c)
    && (match l.getLast? with | none => true | some c => !isWs c)

-- ### basic lemmas about strip / collapse

theorem dropWhile_head_not {p : Char → Bool} :
    ∀ (l : List Char) {c : Char}, (l.dropWhile p).head? = some c → p c = false := by
  intro l
  induction l with
  | nil => intro c h; simp [List.dropWhile] at h
  | cons a t ih =>
    intro c h
    by_cases hp : p a
    · rw [List.dropWhile_cons_of_pos hp] at h; exact ih h
    · rw [List.dropWhile_cons_of_neg hp] at h
      simp at h
      subst h
      simpa using hp

theorem stripEnd_isPrefix (l : List Char) : stripEnd l <+: l := by
  have h1 : l.reverse.dropWhile isWs <:+ l.reverse := List.dropWhile_suffix _
  have h2 : (l.reverse.dropWhile isWs).reverse <+: l.reverse.reverse := by
    exact (List.reverse_prefix.mpr (by simpa using h1))
  simpa [stripEnd] using h2

theorem pyStrip_isInfix (l : List Char) : pyStrip l <:+: l := by
  have h1 : l.dropWhile isWs <:+ l := List.dropWhile_suffix _
  have h2 : stripEnd (l.dropWhile isWs) <+: l.dropWhile isWs := stripEnd_isPrefix _
  exact List.IsInfix.trans (h2.isInfix) (h1.isInfix)

theorem pyStrip_head_not_ws (l : List Char) {c : Char}
    (h : (pyStrip l).head? = some c) : isWs c = false := by
  obtain ⟨t, ht⟩ := stripEnd_isPrefix (l.dropWhile isWs)
  apply dropWhile_head_not l (c := c)
  rw [← ht]
  have h' : (stripEnd (l.dropWhile isWs)).head? = some c := h
  rcases he : stripEnd (l.dropWhile isWs) with _ | ⟨a, r⟩
  · rw [he] at h'; simp at h'
  · rw [he] at h'
    simpa using h'

theorem pyStrip_getLast_not_ws (l : List Char) {c : Char}
    (h : (pyStrip l).getLast? = some c) : isWs c = false := by
  have : (pyStrip l).reverse.head? = some c := by
    rw [List.head?_reverse]; exact h
  have hrev : (pyStrip l).reverse = (l.dropWhile isWs).reverse.dropWhile isWs := by
    unfold pyStrip stripEnd
    simp
  rw [hrev] at this
  exact dropWhile_head_not _ this

theorem andE {a b : Bool} (h : (a && b) = true) : a = true ∧ b = true := by
  constructor <;> simp_all

theorem andI {a b : Bool} (h1 : a = true) (h2 : b = true) : (a && b) = true := by
  simp [h1, h2]

theorem collapseGo_ws_false {c : Char} {rest : List Char} (hc : isWs c = true) :
    collapseGo false (c :: rest) = ' ' :: collapseGo true rest := by
  simp [collapseGo, hc]

theorem collapseGo_ws_true {c : Char} {rest : List Char} (hc : isWs c = true) :
    collapseGo true (c :: rest) = collapseGo true rest := by
  simp [collapseGo, hc]

theorem collapseGo_nonws (b : Bool) {c : Char} {rest : List Char} (hc : isWs c = false) :
    collapseGo b (c :: rest) = c :: collapseGo false rest := by
  simp [collapseGo, hc]

theorem noTwoWs_cons (a : Char) (l : List Char) :
    noTwoWs (a :: l) =
      ((match l.head? with | none => true | some d => !(isWs a && isWs d)) && noTwoWs l) := by
  cases l with
  | nil => simp [noTwoWs]
  | cons b t => simp [noTwoWs]

theorem noTwoWs_of_cons {a : Char} {l : List Char}
    (h : noTwoWs (a :: l) = true) : noTwoWs l = true := by
  rw [noTwoWs_cons] at h
  exact (andE h).2

theorem noTwoWs_append_right (t w : List Char) (hl : noTwoWs (t ++ w) = true) :
    noTwoWs w = true := by
  induction t with
  | nil => simpa using hl
  | cons a t ih => exact ih (noTwoWs_of_cons (by simpa using hl))

theorem noTwoWs_suffix {w l : List Char} (hsuf : w <:+ l) (hl : noTwoWs l = true) :
    noTwoWs w = true := by
  obtain ⟨t, ht⟩ := hsuf
  exact noTwoWs_append_right t w (ht ▸ hl)

theorem noTwoWs_isPrefix : ∀ (w l : List Char), w <+: l → noTwoWs l = true → noTwoWs w = true := by
  intro w
  induction w with
  | nil => intro l _ _; simp [noTwoWs]
  | cons a w' ih =>
    intro l hpre hl
    obtain ⟨t, ht⟩ := hpre
    cases l with
    | nil => simp at ht
    | cons b l' =>
      have hab : a = b := by
        have := congrArg List.head? ht; simpa using this
      have hwl : w' ++ t = l' := by
        have := congrArg List.tail ht; simpa using this
      subst hab
      rw [noTwoWs_cons] at hl ⊢
      refine andI ?_ (ih l' ⟨t, hwl⟩ (andE hl).2)
      rcases hw : w'.head? with _ | d
      · simp
      · have : l'.head? = some d := by
          rw [← hwl]
          cases w' with
          | nil => simp at hw
          | cons x xs => simpa using hw
        rw [this] at hl
        have := (andE hl).1
        simpa using this

theorem noTwoWs_infix {w l : List Char} (h : w <:+: l) (hl : noTwoWs l = true) :
    noTwoWs w = true := by
  obtain ⟨s, hs⟩ := List.infix_iff_prefix_suffix.mp h
  exact noTwoWs_isPrefix w s hs.1 (noTwoWs_suffix hs.2 hl)

theorem collapseGo_all_space :
    ∀ (l : List Char) (b : Bool),
      (collapseGo b l).all (fun c => !isWs c || c = ' ') = true := by
  intro l
  induction l with
  | nil => intro b; simp [collapseGo]
  | cons c rest ih =>
    intro b
    by_cases hc : isWs c
    · cases b with
      | true => rw [collapseGo_ws_true hc]; exact ih true
      | false =>
        rw [collapseGo_ws_false hc, List.all_cons]
        exact andI (by simp) (ih true)
    · rw [collapseGo_nonws b (by simpa using hc), List.all_cons]
      exact andI (by simp [hc]) (ih false)

theorem collapseGo_true_head :
    ∀ (l : List Char) {c : Char}, (collapseGo true l).head? = some c → isWs c = false := by
  intro l
  induction l with
  | nil => intro c h; simp [collapseGo] at h
  | cons a rest ih =>
    intro c h
    by_cases ha : isWs a
    · rw [collapseGo_ws_true ha] at h
      exact ih h
    · rw [collapseGo_nonws true (by simpa using ha)] at h
      simp at h
      subst h
      simpa using ha

theorem noTwoWs_collapseGo : ∀ (l : List Char) (b : Bool), noTwoWs (collapseGo b l) = true := by
  intro l
  induction l with
  | nil => intro b; simp [collapseGo, noTwoWs]
  | cons c rest ih =>
    intro b
    by_cases hc : isWs c
    · cases b with
      | true => rw [collapseGo_ws_true hc]; exact ih true
      | false =>
        rw [collapseGo_ws_false hc, noTwoWs_cons]
        refine andI ?_ (ih true)
        rcases hh : (collapseGo true rest).head? with _ | d
        · simp
        · simp [collapseGo_true_head rest hh]
    · rw [collapseGo_nonws b (by simpa using hc), noTwoWs_cons]
      refine andI ?_ (ih false)
      rcases hh : (collapseGo false rest).head? with _ | d
      · simp
      · simp [hc]

theorem wsNormalizedB_normalizeWs (l : List Char) : wsNormalizedB (normalizeWs l) = true := by
  unfold wsNormalizedB
  have hinf : normalizeWs l <:+: collapseWs l := pyStrip_isInfix _
  refine andI (andI (andI ?_ ?_) ?_) ?_
  · have hall := collapseGo_all_space l false
    rw [List.all_eq_true] at hall ⊢
    intro c hc
    exact hall c (hinf.subset hc)
  · exact noTwoWs_infix hinf (noTwoWs_collapseGo l false)
  · rcases hh : (normalizeWs l).head? with _ | c
    · simp
    · simp [pyStrip_head_not_ws (collapseWs l) hh]
  · rcases hh : (normalizeWs l).getLast? with _ | c
    · simp
    · simp [pyStrip_getLast_not_ws (collapseWs l) hh]

-- ### link-removal scanners (`re.sub` passes of `clean_text_base`)

/-- Negation of the whitespace class: the regex class `[^\s]`. -/
def nonWs (c : Char) : Bool := !isWs c

/-- The literal prefix of the regex alternative `https://`. -/
def httpsLit : List Char := ['h', 't', 't', 'p', 's', ':', '/', '/']

/-- The literal prefix of the regex alternative `http://`. -/
def httpLit : List Char := ['h', 't', 't', 'p', ':', '/', '/']

/-- The literal part of the Twitter short-link pattern `https://t\.co/`. -/
def tcoLit : List Char :=
  ['h', 't', 't', 'p', 's', ':', '/', '/', 't', '.', 'c', 'o', '/']

/-- Length of the match of `https?://[^\s]+` anchored at the head of `l`
(0 when there is none).  The two alternatives are mutually exclusive: a
string starting with `https://` cannot also start with `http://` because
the fifth character differs. -/
def linkMatchLen (l : List Char) : ℕ :=
  if httpsLit.isPrefixOf l then
    (if ((l.drop 8).takeWhile nonWs).isEmpty then 0
     else 8 + ((l.drop 8).takeWhile nonWs).length)
  else if httpLit.isPrefixOf l then
    (if ((l.drop 7).takeWhile nonWs).isEmpty then 0
     else 7 + ((l.drop 7).takeWhile nonWs).length)
  else 0

/-- Length of the match of `https://t\.co/\w+` anchored at the head of `l`
(0 when there is none). -/
def tcoMatchLen (l : List Char) : ℕ :=
  if tcoLit.isPrefixOf l then
    (if ((l.drop 13).takeWhile isWordCh).isEmpty then 0
     else 13 + ((l.drop 13).takeWhile isWordCh).length)
  else 0

/-- One left-to-right pass of `re.sub(pattern, '', text)` for a pattern
whose anchored-match length is computed by `mlen`: at each position either
the anchored match is removed or one character is kept.  Structural fuel
makes the definition kernel-computable; `fuel = l.length` always
suffices because a match is never shorter than one character. -/
def subScanGo (mlen : List Char → ℕ) : ℕ → List Char → List Char
  | 0, _ => []
  | _ + 1, [] => []
  | fuel + 1, c :: rest =>
    if mlen (c :: rest) = 0 then c :: subScanGo mlen fuel rest
    else subScanGo mlen fuel ((c :: rest).drop (mlen (c :: rest)))

/-- `re.sub(r'https?://[^\s]+', '', text)` (`text_utils.py` line 57). -/
def subLink (l : List Char) : List Char := subScanGo linkMatchLen l.length l

/-- `re.sub(r'https://t\.co/\w+', '', text)` (`text_utils.py` line 54). -/
def subTco (l : List Char) : List Char := subScanGo tcoMatchLen l.length l

/-- Does any suffix of the string satisfy `f`?  Instantiated with the
anchored-match tests below, this decides whether a string contains a
substring matching the corresponding regex. -/
def scanHas (f : List Char → Bool) : List Char → Bool
  | [] => f []
  | c :: rest => f (c :: rest) || scanHas f rest

/-- Anchored-match test for `https?://[^\s]+`. -/
def linkStartsB (l : List Char) : Bool := decide (linkMatchLen l ≠ 0)

/-- Anchored-match test for `https://t\.co/\w+`. -/
def tcoStartsB (l : List Char) : Bool := decide (tcoMatchLen l ≠ 0)

/-- The string contains a substring matching `https?://[^\s]+`. -/
def hasLink (l : List Char) : Bool := scanHas linkStartsB l

/-- The string contains a substring matching `https://t\.co/\w+`. -/
def hasTco (l : List Char) : Bool := scanHas tcoStartsB l

-- ### consecutive-pattern scanners (`(#\w+\s*){3,}` and `(@\w+\s*){3,}`)

/-- Length of one repetition `marker ++ \w+ ++ \s*` anchored at the head
of `l` (0 when there is none).  Both inner quantifiers are greedy; since a
following repetition starts with the marker, which is neither a word nor a
whitespace character, greediness here agrees with the regex semantics. -/
def repLen (marker : Char) (l : List Char) : ℕ :=
  match l with
  | [] => 0
  | c :: rest =>
    if c = marker then
      (if (rest.takeWhile isWordCh).isEmpty then 0
       else 1 + (rest.takeWhile isWordCh).length
           + ((rest.dropWhile isWordCh).takeWhile isWs).length)
    else 0

/-- Greedily count consecutive repetitions and their total length. -/
def repsGo (marker : Char) : ℕ → List Char → ℕ × ℕ
  | 0, _ => (0, 0)
  | fuel + 1, l =>
    if repLen marker l = 0 then (0, 0)
    else
      ((repsGo marker fuel (l.drop (repLen marker l))).1 + 1,
        repLen marker l + (repsGo marker fuel (l.drop (repLen marker l))).2)

/-- Length of the match of `(marker\w+\s*){3,}` anchored at the head of
`l` (0 when there are fewer than three repetitions). -/
def consecMatchLen (marker : Char) (l : List Char) : ℕ :=
  if 3 ≤ (repsGo marker l.length l).1 then (repsGo marker l.length l).2 else 0

/-- One `re.sub((marker\w+\s*){3,}, '', text)` pass
(`text_utils.py` lines 62 and 64 with markers `#` and `@`). -/
def subRep (marker : Char) (l : List Char) : List Char :=
  subScanGo (consecMatchLen marker) l.length l

-- ### clean_text_base and its wrappers

/-- The string `"twitter"`. -/
def twitterLit : List Char := ['t', 'w', 'i', 't', 't', 'e', 'r']

/-- The string `"tiktok"`. -/
def tiktokLit : List Char := ['t', 'i', 'k', 't', 'o', 'k']

/-- `clean_text_base` (`text_utils.py` lines 29-74): empty (falsy) text
returns `""`; otherwise optionally remove links (the `t.co` pattern for
platform `"twitter"`, the generic pattern otherwise), optionally remove
consecutive hashtag and mention runs, then collapse whitespace runs and
strip.  The `except` branch is unreachable in this pure model. -/
def cleanTextBase (removeLinks removeConsec : Bool) (platform : List Char)
    (text : List Char) : List Char :=
  if text = [] then []
  else
    normalizeWs
      (if removeConsec then
        subRep '@' (subRep '#'
          (if removeLinks then
            (if platform = twitterLit then subTco text else subLink text)
          else text))
      else
        (if removeLinks then
          (if platform = twitterLit then subTco text else subLink text)
        else text))

/-- `clean_tweet_text` (`text_utils.py` lines 143-151). -/
def cleanTweetText (text : List Char) : List Char :=
  cleanTextBase true false twitterLit text

/-- `clean_description` (`text_utils.py` lines 132-140). -/
def cleanDescription (desc : List Char) : List Char :=
  cleanTextBase false true tiktokLit desc

-- ### lemmas about the anchored matches

theorem length_dropWhile_le (p : Char → Bool) (l : List Char) :
    (l.dropWhile p).length ≤ l.length := by
  induction l with
  | nil => simp
  | cons c rest ih =>
    by_cases h : p c
    · rw [List.dropWhile_cons_of_pos h]; exact Nat.le_succ_of_le ih
    · rw [List.dropWhile_cons_of_neg h]

theorem takeWhile_isEmpty_iff (p : Char → Bool) (dflt : Char) (hd : p dflt = false)
    (x : List Char) : ((x.takeWhile p).isEmpty = false ↔ p (x.headD dflt) = true) := by
  cases x with
  | nil => simp [hd]
  | cons c r =>
    by_cases h : p c
    · simp [List.takeWhile_cons_of_pos h, h]
    · simp [List.takeWhile_cons_of_neg h, h]

theorem headD_append_left {p r : List Char} {d : Char} (h : p ≠ []) :
    (p ++ r).headD d = p.headD d := by
  cases p with
  | nil => exact absurd rfl h
  | cons a t => simp

theorem length_takeWhile_le (p : Char → Bool) (l : List Char) :
    (l.takeWhile p).length ≤ l.length := by
  induction l with
  | nil => simp
  | cons c rest ih =>
    by_cases h : p c
    · rw [List.takeWhile_cons_of_pos h]; simpa using ih
    · rw [List.takeWhile_cons_of_neg h]; simp

theorem drop_length_takeWhile (p : Char → Bool) (x : List Char) :
    x.drop (x.takeWhile p).length = x.dropWhile p := by
  calc x.drop (x.takeWhile p).length
      = (x.takeWhile p ++ x.dropWhile p).drop (x.takeWhile p).length := by
        rw [List.takeWhile_append_dropWhile]
    _ = x.dropWhile p := List.drop_left _ _

theorem linkMatchLen_iff (l : List Char) :
    linkMatchLen l ≠ 0 ↔
      ((httpsLit <+: l ∧ nonWs ((l.drop 8).headD ' ') = true) ∨
        (¬ (httpsLit <+: l) ∧ httpLit <+: l ∧ nonWs ((l.drop 7).headD ' ') = true)) := by
  have hs := takeWhile_isEmpty_iff nonWs ' ' (by decide) (l.drop 8)
  have ht := takeWhile_isEmpty_iff nonWs ' ' (by decide) (l.drop 7)
  unfold linkMatchLen
  split_ifs with h1 h2 h3 h4
  all_goals
    simp_all [List.isPrefixOf_iff_prefix]

theorem tcoMatchLen_iff (l : List Char) :
    tcoMatchLen l ≠ 0 ↔
      (tcoLit <+: l ∧ isWordCh ((l.drop 13).headD ' ') = true) := by
  have hs := takeWhile_isEmpty_iff isWordCh ' ' (by decide) (l.drop 13)
  unfold tcoMatchLen
  split_ifs with h1 h2
  all_goals
    simp_all [List.isPrefixOf_iff_prefix]

theorem linkMatchLen_bounds (l : List Char) (h : linkMatchLen l ≠ 0) :
    7 ≤ linkMatchLen l ∧ linkMatchLen l ≤ l.length := by
  have hw8 : ((l.drop 8).takeWhile nonWs).length ≤ l.length - 8 := by
    have h1 := length_takeWhile_le nonWs (l.drop 8)
    simpa using h1
  have hw7 : ((l.drop 7).takeWhile nonWs).length ≤ l.length - 7 := by
    have h1 := length_takeWhile_le nonWs (l.drop 7)
    simpa using h1
  unfold linkMatchLen at h ⊢
  split_ifs at h ⊢ with h1 h2 h3 h4
  · exact absurd rfl h
  · have hlen : 8 ≤ l.length := by
      have := List.IsPrefix.length_le (List.isPrefixOf_iff_prefix.mp h1)
      simpa [httpsLit] using this
    omega
  · exact absurd rfl h
  · have hlen : 7 ≤ l.length := by
      have := List.IsPrefix.length_le (List.isPrefixOf_iff_prefix.mp h3)
      simpa [httpLit] using this
    omega
  · exact absurd rfl h

theorem linkMatchLen_rest (l : List Char) (h : linkMatchLen l ≠ 0) :
    l.drop (linkMatchLen l) = [] ∨
      ∃ c rs, l.drop (linkMatchLen l) = c :: rs ∧ isWs c = true := by
  have key : ∀ k : ℕ,
      l.drop (k + ((l.drop k).takeWhile nonWs).length) = (l.drop k).dropWhile nonWs := by
    intro k
    rw [← List.drop_drop, drop_length_takeWhile]
  unfold linkMatchLen at h ⊢
  split_ifs at h ⊢ with h1 h2 h3 h4
  · exact absurd rfl h
  · rw [key 8]
    rcases hh : ((l.drop 8).dropWhile nonWs).head? with _ | c
    · left; simpa [List.head?_eq_none_iff] using hh
    · right
      refine ⟨c, ((l.drop 8).dropWhile nonWs).tail, ?_, ?_⟩
      · cases hc : (l.drop 8).dropWhile nonWs with
        | nil => rw [hc] at hh; simp at hh
        | cons a t =>
          rw [hc] at hh
          simp at hh
          simp [hc, hh]
      · have := dropWhile_head_not (l.drop 8) hh
        simpa [nonWs] using this
  · exact absurd rfl h
  · rw [key 7]
    rcases hh : ((l.drop 7).dropWhile nonWs).head? with _ | c
    · left; simpa [List.head?_eq_none_iff] using hh
    · right
      refine ⟨c, ((l.drop 7).dropWhile nonWs).tail, ?_, ?_⟩
      · cases hc : (l.drop 7).dropWhile nonWs with
        | nil => rw [hc] at hh; simp at hh
        | cons a t =>
          rw [hc] at hh
          simp at hh
          simp [hc, hh]
      · have := dropWhile_head_not (l.drop 7) hh
        simpa [nonWs] using this
  · exact absurd rfl h

theorem drop_headD_append_lt (p r : List Char) (k : ℕ) (hk : k < p.length) :
    ((p ++ r).drop k).headD ' ' = (p.drop k).headD ' ' := by
  rw [List.drop_append_of_le_length (Nat.le_of_lt hk)]
  refine headD_append_left ?_
  intro hnil
  have := congrArg List.length hnil
  simp at this
  omega

theorem drop_headD_append_eq (p r : List Char) :
    ((p ++ r).drop p.length).headD ' ' = r.headD ' ' := by
  rw [List.drop_left]

theorem take_eight_of_httpsLit {z : List Char} (h : httpsLit <+: z) :
    z.take 8 = httpsLit := by
  obtain ⟨t, ht⟩ := h
  rw [← ht]
  have h8 : httpsLit.length = 8 := rfl
  rw [← h8]
  exact List.take_left _ _

theorem take_seven_of_httpLit {z : List Char} (h : httpLit <+: z) :
    z.take 7 = httpLit := by
  obtain ⟨t, ht⟩ := h
  rw [← ht]
  have h7 : httpLit.length = 7 := rfl
  rw [← h7]
  exact List.take_left _ _

theorem isPrefix_of_take {z : List Char} {n : ℕ} {w : List Char} (h : z.take n = w) :
    w <+: z := ⟨z.drop n, by rw [← h]; exact List.take_append_drop n z⟩

theorem linkMatchLen_cont (p r : List Char)
    (hr : r = [] ∨ ∃ c rs, r = c :: rs ∧ isWs c = true)
    (hm : linkMatchLen (p ++ r) ≠ 0) (x : List Char) : linkMatchLen (p ++ x) ≠ 0 := by
  rw [linkMatchLen_iff] at hm ⊢
  have hwsAt : ∀ i : ℕ, i = p.length → ((p ++ r).drop i).headD ' ' = ' ' ∨
      isWs (((p ++ r).drop i).headD ' ') = true := by
    intro i hi
    subst hi
    rcases hr with hnil | ⟨c, rs, hcr, hwc⟩
    · left
      subst hnil
      rw [drop_headD_append_eq]
      rfl
    · right
      rw [drop_headD_append_eq, hcr]
      simpa using hwc
  rcases hm with ⟨hpre, hn8⟩ | ⟨hns, hpre7, hn7⟩
  · -- the `https://` alternative matched
    have hhchars : ∀ i : ℕ, i < 8 → nonWs ((httpsLit.drop i).headD ' ') = true := by decide
    have h9 : 9 ≤ p.length := by
      by_contra hlt
      have hle : p.length ≤ 8 := by omega
      have hnws : nonWs (((p ++ r).drop p.length).headD ' ') = true := by
        rcases Nat.lt_or_ge p.length 8 with h8 | h8
        · obtain ⟨t, ht⟩ := hpre
          rw [← ht, drop_headD_append_lt httpsLit t p.length (by simpa [httpsLit] using h8)]
          exact hhchars p.length h8
        · have : p.length = 8 := by omega
          rw [this]
          exact hn8
      rcases hwsAt p.length rfl with hsp | hws
      · rw [hsp] at hnws
        simp [nonWs, isWs] at hnws
      · rw [nonWs] at hnws
        rw [hws] at hnws
        simp at hnws
    have htake : p.take 8 = httpsLit := by
      have h1 : (p ++ r).take 8 = p.take 8 := List.take_append_of_le_length (by omega)
      rw [← h1]
      exact take_eight_of_httpsLit hpre
    have hpp : httpsLit <+: p := isPrefix_of_take htake
    have hc8 : nonWs ((p.drop 8).headD ' ') = true := by
      rw [← drop_headD_append_lt p r 8 (by omega)]
      exact hn8
    left
    refine ⟨hpp.trans ⟨x, rfl⟩, ?_⟩
    rw [drop_headD_append_lt p x 8 (by omega)]
    exact hc8
  · -- the `http://` alternative matched
    have hhchars : ∀ i : ℕ, i < 7 → nonWs ((httpLit.drop i).headD ' ') = true := by decide
    have h8 : 8 ≤ p.length := by
      by_contra hlt
      have hle : p.length ≤ 7 := by omega
      have hnws : nonWs (((p ++ r).drop p.length).headD ' ') = true := by
        rcases Nat.lt_or_ge p.length 7 with h7 | h7
        · obtain ⟨t, ht⟩ := hpre7
          rw [← ht, drop_headD_append_lt httpLit t p.length (by simpa [httpLit] using h7)]
          exact hhchars p.length h7
        · have : p.length = 7 := by omega
          rw [this]
          exact hn7
      rcases hwsAt p.length rfl with hsp | hws
      · rw [hsp] at hnws
        simp [nonWs, isWs] at hnws
      · rw [nonWs] at hnws
        rw [hws] at hnws
        simp at hnws
    have htake : p.take 7 = httpLit := by
      have h1 : (p ++ r).take 7 = p.take 7 := List.take_append_of_le_length (by omega)
      rw [← h1]
      exact take_seven_of_httpLit hpre7
    have hpp : httpLit <+: p := isPrefix_of_take htake
    have hc7 : nonWs ((p.drop 7).headD ' ') = true := by
      rw [← drop_headD_append_lt p r 7 (by omega)]
      exact hn7
    right
    refine ⟨?_, hpp.trans ⟨x, rfl⟩, ?_⟩
    · intro hcon
      apply hns
      have ht1 : (p ++ x).take 8 = httpsLit := take_eight_of_httpsLit hcon
      have ht2 : (p ++ x).take 8 = p.take 8 := List.take_append_of_le_length h8
      have ht3 : (p ++ r).take 8 = p.take 8 := List.take_append_of_le_length h8
      exact isPrefix_of_take (ht3.trans (ht2.symm.trans ht1))
    · rw [drop_headD_append_lt p x 7 (by omega)]
      exact hc7

theorem subScanGo_nil (mlen : List Char → ℕ) (fuel : ℕ) : subScanGo mlen fuel [] = [] := by
  cases fuel <;> rfl

theorem subScanGo_link_ok :
    ∀ (fuel : ℕ) (l : List Char), l.length ≤ fuel →
      (hasLink (subScanGo linkMatchLen fuel l) = false ∧
        ∀ (p : List Char), linkMatchLen (p ++ l) = 0 →
          linkMatchLen (p ++ subScanGo linkMatchLen fuel l) = 0) := by
  intro fuel
  induction fuel with
  | zero =>
    intro l hl
    have hnil : l = [] := List.length_eq_zero.mp (Nat.le_zero.mp hl)
    subst hnil
    rw [subScanGo_nil]
    refine ⟨by decide, ?_⟩
    intro p hp
    simpa using (by simpa using hp : linkMatchLen p = 0)
  | succ fuel ih =>
    intro l hl
    cases l with
    | nil =>
      rw [subScanGo_nil]
      refine ⟨by decide, ?_⟩
      intro p hp
      simpa using (by simpa using hp : linkMatchLen p = 0)
    | cons c rest =>
      by_cases h0 : linkMatchLen (c :: rest) = 0
      · have hgo : subScanGo linkMatchLen (fuel + 1) (c :: rest) =
            c :: subScanGo linkMatchLen fuel rest := by
          simp [subScanGo, h0]
        obtain ⟨ih1, ih2⟩ := ih rest (by simp at hl; omega)
        constructor
        · rw [hgo]
          have hstart : linkStartsB (c :: subScanGo linkMatchLen fuel rest) = false := by
            have := ih2 [c] (by simpa using h0)
            simp [linkStartsB]
            simpa using this
          show scanHas linkStartsB (c :: subScanGo linkMatchLen fuel rest) = false
          rw [scanHas, hstart]
          simpa [hasLink] using ih1
        · intro p hp
          rw [hgo]
          have hsplit : p ++ c :: subScanGo linkMatchLen fuel rest =
              (p ++ [c]) ++ subScanGo linkMatchLen fuel rest := by simp
          rw [hsplit]
          apply ih2 (p ++ [c])
          simpa using hp
      · have hbounds := linkMatchLen_bounds (c :: rest) h0
        have hrest := linkMatchLen_rest (c :: rest) h0
        have hgo : subScanGo linkMatchLen (fuel + 1) (c :: rest) =
            subScanGo linkMatchLen fuel ((c :: rest).drop (linkMatchLen (c :: rest))) := by
          simp [subScanGo, h0]
        have hlen : ((c :: rest).drop (linkMatchLen (c :: rest))).length ≤ fuel := by
          simp at hl ⊢
          omega
        obtain ⟨ih1, ih2⟩ := ih _ hlen
        constructor
        · rw [hgo]; exact ih1
        · intro p hp
          rw [hgo]
          apply ih2 p
          by_contra hne
          exact (linkMatchLen_cont p _ hrest hne (c :: rest)) hp

theorem hasLink_subLink (l : List Char) : hasLink (subLink l) = false :=
  (subScanGo_link_ok l.length l le_rfl).1

theorem wordCh_not_ws {c : Char} (h : isWordCh c = true) : isWs c = false := by
  by_contra hcon
  have hws : isWs c = true := by simpa using hcon
  rw [isWs] at hws
  simp only [Bool.or_eq_true, decide_eq_true_eq] at hws
  rcases hws with ((((h1 | h1) | h1) | h1) | h1) | h1 <;> subst h1 <;> exact absurd h (by decide)

theorem scanHas_eq_false_iff (f : List Char → Bool) :
    ∀ (l : List Char), (scanHas f l = false ↔ ∀ s, s <:+ l → f s = false) := by
  intro l
  induction l with
  | nil =>
    constructor
    · intro h s hs
      obtain ⟨t, ht⟩ := hs
      have : s = [] := by simpa using (List.append_eq_nil.mp ht).2
      subst this
      simpa [scanHas] using h
    · intro h
      simpa [scanHas] using h [] ⟨[], rfl⟩
  | cons c rest ih =>
    rw [scanHas, Bool.or_eq_false_iff, ih]
    constructor
    · intro h s hs
      rcases List.suffix_cons_iff.mp hs with heq | hsfx
      · subst heq; exact h.1
      · exact h.2 s hsfx
    · intro h
      exact ⟨h _ ⟨[], rfl⟩, fun s hs => h s (List.suffix_cons_iff.mpr (Or.inr hs))⟩

theorem linkStartsB_kernel (l : List Char) (h : linkStartsB l = true) :
    ∃ w, w <+: l ∧ w ≠ [] ∧ (∀ c ∈ w, isWs c = false) ∧
      ∀ y, w <+: y → linkStartsB y = true := by
  have hm : linkMatchLen l ≠ 0 := by simpa [linkStartsB] using h
  rw [linkMatchLen_iff] at hm
  rcases hm with ⟨hpre, hn⟩ | ⟨hns, hpre, hn⟩
  · obtain ⟨t, ht⟩ := hpre
    have htne : t ≠ [] := by
      intro hnil
      subst hnil
      rw [← ht] at hn
      simp [httpsLit] at hn
      exact absurd hn (by decide)
    obtain ⟨d, t', rfl⟩ := List.exists_cons_of_ne_nil htne
    have hd : isWs d = false := by
      rw [← ht] at hn
      have : ((httpsLit ++ d :: t').drop 8).headD ' ' = d := by
        rw [show (8 : ℕ) = httpsLit.length from rfl, List.drop_left]
        rfl
      rw [this] at hn
      simpa [nonWs] using hn
    refine ⟨httpsLit ++ [d], ⟨t', by rw [← ht]; simp⟩, by simp, ?_, ?_⟩
    · intro c hc
      rcases List.mem_append.mp hc with hc1 | hc2
      · have hall : ∀ a ∈ httpsLit, isWs a = false := by decide
        first
        | exact hall c hc1
        | exact (by decide : ∀ a ∈ httpLit, isWs a = false) c hc1
      · have : c = d := by simpa using hc2
        subst this
        exact hd
    · intro y hy
      obtain ⟨t2, ht2⟩ := hy
      have hy2 : y = httpsLit ++ (d :: t2) := by rw [← ht2]; simp
      rw [linkStartsB, decide_eq_true_eq, linkMatchLen_iff]
      left
      refine ⟨⟨d :: t2, hy2.symm⟩, ?_⟩
      rw [hy2, show (8 : ℕ) = httpsLit.length from rfl, List.drop_left]
      simpa [nonWs] using hd
  · obtain ⟨t, ht⟩ := hpre
    have htne : t ≠ [] := by
      intro hnil
      subst hnil
      rw [← ht] at hn
      simp [httpLit] at hn
      exact absurd hn (by decide)
    obtain ⟨d, t', rfl⟩ := List.exists_cons_of_ne_nil htne
    have hd : isWs d = false := by
      rw [← ht] at hn
      have : ((httpLit ++ d :: t').drop 7).headD ' ' = d := by
        rw [show (7 : ℕ) = httpLit.length from rfl, List.drop_left]
        rfl
      rw [this] at hn
      simpa [nonWs] using hn
    refine ⟨httpLit ++ [d], ⟨t', by rw [← ht]; simp⟩, by simp, ?_, ?_⟩
    · intro c hc
      rcases List.mem_append.mp hc with hc1 | hc2
      · have hall : ∀ a ∈ httpsLit, isWs a = false := by decide
        first
        | exact hall c hc1
        | exact (by decide : ∀ a ∈ httpLit, isWs a = false) c hc1
      · have : c = d := by simpa using hc2
        subst this
        exact hd
    · intro y hy
      obtain ⟨t2, ht2⟩ := hy
      have hy2 : y = httpLit ++ (d :: t2) := by rw [← ht2]; simp
      rw [linkStartsB, decide_eq_true_eq, linkMatchLen_iff]
      right
      refine ⟨?_, ⟨d :: t2, hy2.symm⟩, ?_⟩
      · intro hcon
        obtain ⟨u, hu⟩ := hcon
        have h4 : y.getD 4 ' ' = 's' := by
          rw [← hu, List.getD_append _ _ _ 4 (by decide)]
          rfl
        have h4' : y.getD 4 ' ' = ':' := by
          rw [hy2, List.getD_append _ _ _ 4 (by decide)]
          rfl
        rw [h4] at h4'
        exact absurd h4' (by decide)
      · rw [hy2, show (7 : ℕ) = httpLit.length from rfl, List.drop_left]
        simpa [nonWs] using hd

theorem tcoStartsB_kernel (l : List Char) (h : tcoStartsB l = true) :
    ∃ w, w <+: l ∧ w ≠ [] ∧ (∀ c ∈ w, isWs c = false) ∧
      ∀ y, w <+: y → tcoStartsB y = true := by
  have hm : tcoMatchLen l ≠ 0 := by simpa [tcoStartsB] using h
  rw [tcoMatchLen_iff] at hm
  obtain ⟨hpre, hn⟩ := hm
  obtain ⟨t, ht⟩ := hpre
  have htne : t ≠ [] := by
    intro hnil
    subst hnil
    rw [← ht] at hn
    simp [tcoLit] at hn
    exact absurd hn (by decide)
  obtain ⟨d, t', rfl⟩ := List.exists_cons_of_ne_nil htne
  have hdw : isWordCh d = true := by
    rw [← ht] at hn
    have : ((tcoLit ++ d :: t').drop 13).headD ' ' = d := by
      rw [show (13 : ℕ) = tcoLit.length from rfl, List.drop_left]
      rfl
    rw [this] at hn
    exact hn
  refine ⟨tcoLit ++ [d], ⟨t', by rw [← ht]; simp⟩, by simp, ?_, ?_⟩
  · intro c hc
    rcases List.mem_append.mp hc with hc1 | hc2
    · exact (by decide : ∀ a ∈ tcoLit, isWs a = false) c hc1
    · have : c = d := by simpa using hc2
      subst this
      exact wordCh_not_ws hdw
  · intro y hy
    obtain ⟨t2, ht2⟩ := hy
    have hy2 : y = tcoLit ++ (d :: t2) := by rw [← ht2]; simp
    rw [tcoStartsB, decide_eq_true_eq, tcoMatchLen_iff]
    refine ⟨⟨d :: t2, hy2.symm⟩, ?_⟩
    rw [hy2, show (13 : ℕ) = tcoLit.length from rfl, List.drop_left]
    simpa using hdw

theorem collapseGo_true_eq (l : List Char) :
    collapseGo true l = collapseGo false (l.dropWhile isWs) := by
  induction l with
  | nil => simp [collapseGo]
  | cons c rest ih =>
    by_cases hc : isWs c
    · rw [collapseGo_ws_true hc, List.dropWhile_cons_of_pos hc, ih]
    · have hc' : isWs c = false := by simpa using hc
      rw [collapseGo_nonws true hc', List.dropWhile_cons_of_neg hc,
        collapseGo_nonws false hc']

theorem nonWs_prefix_collapse :
    ∀ (n : ℕ) (l w : List Char), l.length ≤ n → (∀ c ∈ w, isWs c = false) →
      w <+: collapseGo false l → w <+: l := by
  intro n
  induction n with
  | zero =>
    intro l w hl hw hpre
    have : l = [] := List.length_eq_zero.mp (Nat.le_zero.mp hl)
    subst this
    simpa [collapseGo] using hpre
  | succ n ih =>
    intro l w hl hw hpre
    cases l with
    | nil => simpa [collapseGo] using hpre
    | cons c rest =>
      by_cases hc : isWs c
      · rw [collapseGo_ws_false hc] at hpre
        cases w with
        | nil => exact List.nil_prefix
        | cons a w' =>
          have ha : a = ' ' := (List.cons_prefix_cons.mp hpre).1
          have : isWs a = false := hw a (by simp)
          rw [ha] at this
          exact absurd this (by decide)
      · have hc' : isWs c = false := by simpa using hc
        rw [collapseGo_nonws false hc'] at hpre
        cases w with
        | nil => exact List.nil_prefix
        | cons a w' =>
          obtain ⟨ha, hw'⟩ := List.cons_prefix_cons.mp hpre
          subst ha
          refine List.cons_prefix_cons.mpr ⟨rfl, ?_⟩
          exact ih rest w' (by simp at hl; omega) (fun x hx => hw x (by simp [hx])) hw'

theorem nonWs_infix_collapse :
    ∀ (n : ℕ) (l w : List Char), l.length ≤ n → (∀ c ∈ w, isWs c = false) → w ≠ [] →
      w <:+: collapseGo false l → w <:+: l := by
  intro n
  induction n with
  | zero =>
    intro l w hl hw hne hinf
    have : l = [] := List.length_eq_zero.mp (Nat.le_zero.mp hl)
    subst this
    obtain ⟨s, t, hst⟩ := hinf
    simp [collapseGo] at hst
    exact absurd hst.2.1 hne
  | succ n ih =>
    intro l w hl hw hne hinf
    cases l with
    | nil =>
      obtain ⟨s, t, hst⟩ := hinf
      simp [collapseGo] at hst
      exact absurd hst.2.1 hne
    | cons c rest =>
      by_cases hc : isWs c
      · rw [collapseGo_ws_false hc, collapseGo_true_eq] at hinf
        rcases List.infix_cons_iff.mp hinf with hpre | hinf'
        · cases w with
          | nil => exact absurd rfl hne
          | cons a w' =>
            have ha : a = ' ' := (List.cons_prefix_cons.mp hpre).1
            have : isWs a = false := hw a (by simp)
            rw [ha] at this
            exact absurd this (by decide)
        · have hrec : w <:+: rest.dropWhile isWs := by
            refine ih (rest.dropWhile isWs) w ?_ hw hne hinf'
            have := length_dropWhile_le isWs rest
            simp at hl
            omega
          have hsub : rest.dropWhile isWs <:+ rest := List.dropWhile_suffix _
          exact List.infix_cons (hrec.trans hsub.isInfix)
      · have hc' : isWs c = false := by simpa using hc
        rw [collapseGo_nonws false hc'] at hinf
        rcases List.infix_cons_iff.mp hinf with hpre | hinf'
        · cases w with
          | nil => exact absurd rfl hne
          | cons a w' =>
            obtain ⟨ha, hw'⟩ := List.cons_prefix_cons.mp hpre
            subst ha
            have : w' <+: rest :=
              nonWs_prefix_collapse n rest w' (by simp at hl; omega)
                (fun x hx => hw x (by simp [hx])) hw'
            exact (List.cons_prefix_cons.mpr ⟨rfl, this⟩).isInfix
        · exact List.infix_cons (ih rest w (by simp at hl; omega) hw hne hinf')

theorem scanHas_normalize (f : List Char → Bool)
    (kernel : ∀ l, f l = true → ∃ w, w <+: l ∧ w ≠ [] ∧ (∀ c ∈ w, isWs c = false) ∧
      ∀ y, w <+: y → f y = true)
    (x : List Char) (hx : scanHas f x = false) : scanHas f (normalizeWs x) = false := by
  rw [scanHas_eq_false_iff] at hx ⊢
  intro s hs
  by_contra hcon
  have hf : f s = true := by simpa using hcon
  obtain ⟨w, hwp, hwne, hwns, hre⟩ := kernel s hf
  have hwinf : w <:+: x := by
    have h1 : w <:+: normalizeWs x := hwp.isInfix.trans hs.isInfix
    have h2 : w <:+: collapseWs x := h1.trans (pyStrip_isInfix (collapseWs x))
    exact nonWs_infix_collapse x.length x w le_rfl hwns hwne h2
  obtain ⟨pre, suf, hx2⟩ := hwinf
  have hsfx : w ++ suf <:+ x := ⟨pre, by rw [← hx2]; simp⟩
  have hfw : f (w ++ suf) = true := hre _ ⟨suf, rfl⟩
  have := hx (w ++ suf) hsfx
  simp_all

theorem subScanGo_tco_id :
    ∀ (fuel : ℕ) (l : List Char), l.length ≤ fuel → hasTco l = false →
      subScanGo tcoMatchLen fuel l = l := by
  intro fuel
  induction fuel with
  | zero =>
    intro l hl _
    have : l = [] := List.length_eq_zero.mp (Nat.le_zero.mp hl)
    subst this
    rfl
  | succ fuel ih =>
    intro l hl hfree
    cases l with
    | nil => rfl
    | cons c rest =>
      rw [hasTco, scanHas, Bool.or_eq_false_iff] at hfree
      have h0 : tcoMatchLen (c :: rest) = 0 := by
        have := hfree.1
        simpa [tcoStartsB] using this
      rw [show subScanGo tcoMatchLen (fuel + 1) (c :: rest) =
        c :: subScanGo tcoMatchLen fuel rest by simp [subScanGo, h0]]
      rw [ih rest (by simp at hl; omega) hfree.2]

-- ### is_meaningful_content and its helpers

/-- Fuel-driven scanner for Python `text.replace(old, '')`: left-to-right,
non-overlapping removal of every occurrence of `old`.  `fuel = l.length`
suffices when `old` is nonempty. -/
def removeAllGo (old : List Char) : ℕ → List Char → List Char
  | 0, _ => []
  | _ + 1, [] => []
  | fuel + 1, c :: rest =>
    if old.isPrefixOf (c :: rest) then removeAllGo old fuel ((c :: rest).drop old.length)
    else c :: removeAllGo old fuel rest

/-- Python `text.replace(old, '')`.  `is_meaningful_content` only calls it
with a nonempty `old` (the call is guarded by `if search_term:`); the
`old = []` case is given the identity as a modelling choice. -/
def removeAll (old l : List Char) : List Char :=
  if old.isEmpty then l else removeAllGo old l.length l

/-- One opaque Python exception token. -/
inductive PyErr
  | runtime

/-- The `try`/`except` wrapper of `is_meaningful_content`
(`text_utils.py` lines 91-122): an exception while evaluating the body
yields `True` ("in caso di errore, mantieni il contenuto"). -/
def isMeaningfulContentTry (r : Except PyErr Bool) : Bool :=
  match r with
  | .ok b => b
  | .error _ => true

/-- The residue checked by `is_meaningful_content`: the text with every
occurrence of the search term, of its lowercase form and (for platform
`"twitter"`) of their `#`-prefixed forms removed by successive
`str.replace` calls, then stripped (`text_utils.py` lines 96-107). -/
def meaningfulResidue (text searchTerm platform : List Char) : List Char :=
  pyStrip
    (if searchTerm = [] then text
     else
       (if platform = twitterLit then
         removeAll ('#' :: pyLower searchTerm)
           (removeAll ('#' :: searchTerm)
             (removeAll (pyLower searchTerm) (removeAll searchTerm text)))
       else removeAll (pyLower searchTerm) (removeAll searchTerm text)))

/-- The body of `is_meaningful_content`: falsy text is not meaningful; the
residue must reach `min_length` characters and must not consist solely of
`#`, `@`, whitespace and non-word characters (the class `[#@\s\W]` is
exactly the complement of the word characters). -/
def isMeaningfulBody (text searchTerm : List Char) (minLength : ℕ)
    (platform : List Char) : Bool :=
  if text = [] then false
  else if (meaningfulResidue text searchTerm platform).length < minLength then false
  else if (meaningfulResidue text searchTerm platform).all (fun c => !isWordCh c) then false
  else true

/-- `is_meaningful_content` (`text_utils.py` lines 77-122). -/
def isMeaningfulContent (text searchTerm : List Char) (minLength : ℕ)
    (platform : List Char) : Bool :=
  isMeaningfulContentTry (Except.ok (isMeaningfulBody text searchTerm minLength platform))

/-- `is_meaningful_description` (`text_utils.py` lines 154-162). -/
def isMeaningfulDescription (cleanDesc searchTerm : List Char) (minLength : ℕ) : Bool :=
  isMeaningfulContent cleanDesc searchTerm minLength tiktokLit

-- ### claims C3 and C4

/-- C3 counterexample: the claim fails on the code.  On the input
`https://thttps://t.co/abc.co/abc`, removing the single match
`https://t.co/abc` splices the surrounding fragments into a new
`https://t.co/abc`, so `clean_tweet_text` returns a string that still
matches `https://t\.co/\w+`; and with
`remove_consecutive_patterns=True`, `clean_text_base` with
`remove_links=True` on a non-Twitter platform can likewise splice a
generic link (`http:/#aa#bb#cc/x` becomes `http://x`). -/
theorem c3_counterexample :
    hasTco (cleanTweetText "https://thttps://t.co/abc.co/abc".toList) = true ∧
      cleanTweetText "https://thttps://t.co/abc.co/abc".toList =
        "https://t.co/abc".toList ∧
      hasLink (cleanTextBase true true "generic".toList "http:/#aa#bb#cc/x".toList) = true := by
  refine ⟨by decide, by decide, by decide⟩

/-- C3 (amended): `clean_tweet_text` removes the matches of
`https://t\.co/\w+` in one left-to-right non-overlapping pass (which can
splice fragments into a new link); whenever the input contains no match,
the output contains none.  `clean_text_base` with `remove_links=True`,
`remove_consecutive_patterns=False` and a platform other than `"twitter"`
returns a string with no substring matching `https?://` followed by
non-whitespace.  In both cases the output has every whitespace run
collapsed to a single space and no leading or trailing whitespace. -/
theorem c3_clean_text_links (l platform : List Char) (hp : platform ≠ twitterLit) :
    ((l ≠ [] → cleanTweetText l = normalizeWs (subTco l)) ∧
        (hasTco l = false → hasTco (cleanTweetText l) = false)) ∧
      hasLink (cleanTextBase true false platform l) = false ∧
      wsNormalizedB (cleanTweetText l) = true ∧
      wsNormalizedB (cleanTextBase true false platform l) = true := by
  by_cases hl : l = []
  · subst hl
    have hnil : cleanTextBase true false platform [] = [] := by simp [cleanTextBase]
    refine ⟨⟨fun h => absurd rfl h, fun _ => by decide⟩, ?_, by decide, ?_⟩
    · rw [hnil]; decide
    · rw [hnil]; decide
  · have e1 : cleanTweetText l = normalizeWs (subTco l) := by
      simp [cleanTweetText, cleanTextBase, hl]
    have e2 : cleanTextBase true false platform l = normalizeWs (subLink l) := by
      simp [cleanTextBase, hl, hp]
    refine ⟨⟨fun _ => e1, ?_⟩, ?_, ?_, ?_⟩
    · intro hfree
      have hid : subTco l = l := subScanGo_tco_id l.length l le_rfl hfree
      rw [e1, hid]
      exact scanHas_normalize tcoStartsB tcoStartsB_kernel l hfree
    · rw [e2]
      exact scanHas_normalize linkStartsB linkStartsB_kernel (subLink l) (hasLink_subLink l)
    · rw [e1]
      exact wsNormalizedB_normalizeWs _
    · rw [e2]
      exact wsNormalizedB_normalizeWs _

/-- Witness for `c3_clean_text_links` at a concrete input, with every
hypothesis discharged. -/
theorem c3_clean_text_links_witness :
    hasTco (cleanTweetText "see https://example.com/a  and #x".toList) = false ∧
      hasLink (cleanTextBase true false "tiktok".toList
        "see https://example.com/a  and #x".toList) = false ∧
      wsNormalizedB (cleanTweetText "see https://example.com/a  and #x".toList) = true := by
  refine ⟨?_, ?_, ?_⟩
  · exact (c3_clean_text_links "see https://example.com/a  and #x".toList
      "tiktok".toList (by decide)).1.2 (by decide)
  · exact (c3_clean_text_links "see https://example.com/a  and #x".toList
      "tiktok".toList (by decide)).2.1
  · exact (c3_clean_text_links "see https://example.com/a  and #x".toList
      "tiktok".toList (by decide)).2.2.1

/-- C4: `is_meaningful_content` returns `False` on empty text, on a
residue (text with the search term, its lowercase form and, on platform
`"twitter"`, their `#`-prefixed forms removed, then stripped) shorter than
`min_length`, and on a residue consisting only of `#`, `@`, whitespace and
non-word characters; otherwise it returns `True`. -/
theorem c4_is_meaningful_content (text searchTerm : List Char) (minLength : ℕ)
    (platform : List Char) :
    isMeaningfulContent text searchTerm minLength platform = true ↔
      (text ≠ [] ∧
        minLength ≤ (meaningfulResidue text searchTerm platform).length ∧
        ∃ c ∈ meaningfulResidue text searchTerm platform, isWordCh c = true) := by
  unfold isMeaningfulContent isMeaningfulContentTry isMeaningfulBody
  split_ifs with h1 h2 h3
  · simp [h1]
  · constructor
    · intro h; exact absurd h (by decide)
    · intro h; omega
  · constructor
    · intro h; exact absurd h (by decide)
    · intro h
      exfalso
      obtain ⟨c, hc, hw⟩ := h.2.2
      have := (List.all_eq_true.mp h3) c hc
      simp [hw] at this
  · constructor
    · intro _
      refine ⟨h1, by omega, ?_⟩
      have h3' := h3
      rw [List.all_eq_true] at h3'
      push_neg at h3'
      obtain ⟨c, hc, hw⟩ := h3'
      exact ⟨c, hc, by simpa using hw⟩
    · intro _; rfl

-- ### relevance scoring (tiktok_scraper.py lines 486-589), floats modelled over ℚ

/-- The record returned by `calculate_video_relevance`. -/
structure RelevanceResult where
  relevanceScore : ℚ
  isRelevant : Bool
  hashtagScore : ℚ
  descriptionScore : ℚ
deriving DecidableEq

/-- Python `round` (banker's rounding, half to even) on a rational. -/
def pyRoundInt (x : ℚ) : ℤ :=
  if x - ⌊x⌋ < 1 / 2 then ⌊x⌋
  else if (1 : ℚ) / 2 < x - ⌊x⌋ then ⌊x⌋ + 1
  else if ⌊x⌋ % 2 = 0 then ⌊x⌋ else ⌊x⌋ + 1

/-- Python `round(x, 3)` on a rational. -/
def pyRound3 (x : ℚ) : ℚ := (pyRoundInt (x * 1000) : ℚ) / 1000

theorem pyRoundInt_bounds {x : ℚ} (h0 : 0 ≤ x) (h1 : x ≤ 1000) :
    0 ≤ pyRoundInt x ∧ pyRoundInt x ≤ 1000 := by
  have hf0 : (0 : ℤ) ≤ ⌊x⌋ := Int.floor_nonneg.mpr h0
  have hf1 : ⌊x⌋ ≤ 1000 := by
    have := Int.floor_le_floor (α := ℚ) h1
    simpa using this
  have hfx : (⌊x⌋ : ℚ) ≤ x := Int.floor_le x
  unfold pyRoundInt
  split_ifs with hc1 hc2 hc3
  · exact ⟨hf0, hf1⟩
  · have : (⌊x⌋ : ℚ) + 1 / 2 < x := by linarith
    have hlt : (⌊x⌋ : ℚ) < 1000 := by linarith
    have : ⌊x⌋ < 1000 := by exact_mod_cast hlt
    constructor <;> omega
  · exact ⟨hf0, hf1⟩
  · have : (⌊x⌋ : ℚ) + 1 / 2 ≤ x := by linarith
    have hlt : (⌊x⌋ : ℚ) < 1000 := by linarith
    have : ⌊x⌋ < 1000 := by exact_mod_cast hlt
    constructor <;> omega

theorem pyRound3_bounds {x : ℚ} (h0 : 0 ≤ x) (h1 : x ≤ 1) :
    0 ≤ pyRound3 x ∧ pyRound3 x ≤ 1 := by
  have hb := pyRoundInt_bounds (x := x * 1000) (by linarith) (by linarith)
  unfold pyRound3
  constructor
  · have : (0 : ℚ) ≤ (pyRoundInt (x * 1000) : ℚ) := by exact_mod_cast hb.1
    positivity
  · rw [div_le_one (by norm_num)]
    exact_mod_cast hb.2

/-- Python's substring test `a in b` (contiguous containment). -/
def isSubstr (pat : List Char) : List Char → Bool
  | [] => pat.isEmpty
  | c :: rest => pat.isPrefixOf (c :: rest) || isSubstr pat rest

/-- Per-hashtag contribution of `calculate_hashtag_relevance`'s loop
(`tiktok_scraper.py` lines 496-507): exact match adds 2 to `matches`, the
term contained in the hashtag adds 1.5, the hashtag contained in the term
adds 1 to `partial_matches`.  Python `in` is substring containment. -/
def hashtagContrib (termLower h : List Char) : ℚ × ℚ :=
  if termLower = pyStrip (pyLower h) then (2, 0)
  else if isSubstr termLower (pyStrip (pyLower h)) then (3 / 2, 0)
  else if isSubstr (pyStrip (pyLower h)) termLower then (0, 1)
  else (0, 0)

/-- `calculate_hashtag_relevance` (`tiktok_scraper.py` lines 486-520). -/
def calculateHashtagRelevance (searchTerm : List Char)
    (hashtags : List (List Char)) : ℚ :=
  if hashtags = [] ∨ searchTerm = [] then 0
  else
    if 0 < (hashtags.length : ℚ) * 2 then
      min
        (((hashtags.map (fun h => (hashtagContrib (pyStrip (pyLower searchTerm)) h).1)).sum
            + (hashtags.map
                (fun h => (hashtagContrib (pyStrip (pyLower searchTerm)) h).2)).sum * (1 / 2))
          / ((hashtags.length : ℚ) * 2))
        1
    else 0

/-- State machine for Python `str.split()` with no argument: split on
whitespace runs, discarding empty pieces.  The accumulator holds the
current word reversed. -/
def pySplitGo : List Char → List Char → List (List Char)
  | acc, [] => if acc = [] then [] else [acc.reverse]
  | acc, c :: rest =>
    if isWs c then
      (if acc = [] then pySplitGo [] rest else acc.reverse :: pySplitGo [] rest)
    else pySplitGo (c :: acc) rest

/-- Python `str.split()`. -/
def pySplit (l : List Char) : List (List Char) := pySplitGo [] l

/-- Fuel-driven scanner for Python `str.count`: non-overlapping,
left-to-right occurrence count.  Only called with nonempty patterns (the
words of a `split()`); the empty pattern is given count 0 as a modelling
choice. -/
def countOccGo (pat : List Char) : ℕ → List Char → ℕ
  | 0, _ => 0
  | _ + 1, [] => 0
  | fuel + 1, c :: rest =>
    if pat.isPrefixOf (c :: rest) then 1 + countOccGo pat fuel ((c :: rest).drop pat.length)
    else countOccGo pat fuel rest

/-- Python `text.count(pat)`. -/
def countOcc (pat l : List Char) : ℕ :=
  if pat.isEmpty then 0 else countOccGo pat l.length l

/-- `calculate_description_relevance` (`tiktok_scraper.py` lines
523-554): occurrences of each word of the lowered, stripped search term
are counted in the lowered description and normalised by
`max(description_words * 0.1, 1)`, capped at 1. -/
def calculateDescriptionRelevance (searchTerm description : List Char) : ℚ :=
  if description = [] ∨ searchTerm = [] then 0
  else
    if ((pySplit (pyLower description)).length : ℕ) = 0 then 0
    else
      min
        ((((pySplit (pyStrip (pyLower searchTerm))).map
            (fun w => countOcc w (pyLower description))).sum : ℚ)
          / max (((pySplit (pyLower description)).length : ℚ) * (1 / 10)) 1)
        1

/-- The `try`/`except` wrapper of `calculate_video_relevance`
(`tiktok_scraper.py` lines 559-589): an exception yields the
all-zero, not-relevant record. -/
def calculateVideoRelevanceTry (r : Except PyErr RelevanceResult) : RelevanceResult :=
  match r with
  | .ok v => v
  | .error _ => ⟨0, false, 0, 0⟩

/-- The body of `calculate_video_relevance`: the combined score is the
fixed linear combination `0.6 * hashtag_score + 0.4 * description_score`,
the flag compares it with the threshold, and the returned fields are
rounded to three decimals. -/
def calculateVideoRelevanceBody (searchTerm : List Char)
    (hashtags : List (List Char)) (description : List Char)
    (threshold : ℚ) : RelevanceResult :=
  ⟨pyRound3 (calculateHashtagRelevance searchTerm hashtags * (6 / 10)
      + calculateDescriptionRelevance searchTerm description * (4 / 10)),
    decide (threshold ≤ calculateHashtagRelevance searchTerm hashtags * (6 / 10)
      + calculateDescriptionRelevance searchTerm description * (4 / 10)),
    pyRound3 (calculateHashtagRelevance searchTerm hashtags),
    pyRound3 (calculateDescriptionRelevance searchTerm description)⟩

/-- `calculate_video_relevance` (`tiktok_scraper.py` lines 557-589). -/
def calculateVideoRelevance (searchTerm : List Char)
    (hashtags : List (List Char)) (description : List Char)
    (threshold : ℚ) : RelevanceResult :=
  calculateVideoRelevanceTry
    (Except.ok (calculateVideoRelevanceBody searchTerm hashtags description threshold))

theorem hashtagContrib_nonneg (t h : List Char) :
    0 ≤ (hashtagContrib t h).1 ∧ (hashtagContrib t h).1 ≤ 2 ∧
      0 ≤ (hashtagContrib t h).2 ∧ (hashtagContrib t h).2 ≤ 1 := by
  unfold hashtagContrib
  split_ifs <;> norm_num

theorem calculateHashtagRelevance_bounds (searchTerm : List Char)
    (hashtags : List (List Char)) :
    0 ≤ calculateHashtagRelevance searchTerm hashtags ∧
      calculateHashtagRelevance searchTerm hashtags ≤ 1 := by
  unfold calculateHashtagRelevance
  split_ifs with h1 h2
  · norm_num
  · have hms : 0 ≤ (hashtags.map
        (fun h => (hashtagContrib (pyStrip (pyLower searchTerm)) h).1)).sum := by
      apply List.sum_nonneg
      intro x hx
      obtain ⟨a, _, ha⟩ := List.mem_map.mp hx
      rw [← ha]
      exact (hashtagContrib_nonneg _ _).1
    have hps : 0 ≤ (hashtags.map
        (fun h => (hashtagContrib (pyStrip (pyLower searchTerm)) h).2)).sum := by
      apply List.sum_nonneg
      intro x hx
      obtain ⟨a, _, ha⟩ := List.mem_map.mp hx
      rw [← ha]
      exact (hashtagContrib_nonneg _ _).2.2.1
    constructor
    · refine le_min ?_ (by norm_num)
      apply div_nonneg
      · linarith
      · linarith
    · exact min_le_right _ _
  · norm_num

theorem calculateDescriptionRelevance_bounds (searchTerm description : List Char) :
    0 ≤ calculateDescriptionRelevance searchTerm description ∧
      calculateDescriptionRelevance searchTerm description ≤ 1 := by
  unfold calculateDescriptionRelevance
  split_ifs with h1 h2
  · norm_num
  · norm_num
  · constructor
    · refine le_min ?_ (by norm_num)
      apply div_nonneg
      · positivity
      · have : (1 : ℚ) ≤ max (((pySplit (pyLower description)).length : ℚ) * (1 / 10)) 1 :=
          le_max_right _ _
        linarith
    · exact min_le_right _ _

/-- C1: the hashtag and description scores each lie in `[0, 1]`, the
combined score is the fixed linear combination
`0.6 * hashtag_score + 0.4 * description_score` and lies in `[0, 1]`, the
returned `relevance_score` is that combination rounded to three decimals
(also in `[0, 1]`), and the returned flag is true exactly when the
combined score reaches the threshold. -/
theorem c1_calculate_video_relevance (searchTerm : List Char)
    (hashtags : List (List Char)) (description : List Char) (threshold : ℚ) :
    0 ≤ calculateHashtagRelevance searchTerm hashtags ∧
      calculateHashtagRelevance searchTerm hashtags ≤ 1 ∧
      0 ≤ calculateDescriptionRelevance searchTerm description ∧
      calculateDescriptionRelevance searchTerm description ≤ 1 ∧
      (calculateVideoRelevance searchTerm hashtags description threshold).relevanceScore =
        pyRound3 (calculateHashtagRelevance searchTerm hashtags * (6 / 10)
          + calculateDescriptionRelevance searchTerm description * (4 / 10)) ∧
      0 ≤ calculateHashtagRelevance searchTerm hashtags * (6 / 10)
          + calculateDescriptionRelevance searchTerm description * (4 / 10) ∧
      calculateHashtagRelevance searchTerm hashtags * (6 / 10)
          + calculateDescriptionRelevance searchTerm description * (4 / 10) ≤ 1 ∧
      0 ≤ (calculateVideoRelevance searchTerm hashtags description threshold).relevanceScore ∧
      (calculateVideoRelevance searchTerm hashtags description threshold).relevanceScore ≤ 1 ∧
      ((calculateVideoRelevance searchTerm hashtags description threshold).isRelevant = true ↔
        threshold ≤ calculateHashtagRelevance searchTerm hashtags * (6 / 10)
          + calculateDescriptionRelevance searchTerm description * (4 / 10)) := by
  obtain ⟨hh0, hh1⟩ := calculateHashtagRelevance_bounds searchTerm hashtags
  obtain ⟨hd0, hd1⟩ := calculateDescriptionRelevance_bounds searchTerm description
  have hs0 : 0 ≤ calculateHashtagRelevance searchTerm hashtags * (6 / 10)
      + calculateDescriptionRelevance searchTerm description * (4 / 10) := by linarith
  have hs1 : calculateHashtagRelevance searchTerm hashtags * (6 / 10)
      + calculateDescriptionRelevance searchTerm description * (4 / 10) ≤ 1 := by linarith
  have hr := pyRound3_bounds hs0 hs1
  refine ⟨hh0, hh1, hd0, hd1, rfl, hs0, hs1, hr.1, hr.2, ?_⟩
  simp [calculateVideoRelevance, calculateVideoRelevanceTry, calculateVideoRelevanceBody]

-- ### apply_video_filters (tiktok_scraper.py lines 596-652)

/-- A calendar date as parsed from the video's ISO timestamp or from the
`--created-after` argument (`datetime.date` values; parsing itself is
Python stdlib and is modelled as already done). -/
structure PyDate where
  y : ℕ
  m : ℕ
  d : ℕ
deriving DecidableEq

/-- Lexicographic strict order on dates, i.e. Python `date < date`. -/
def dateLtB (a b : PyDate) : Bool :=
  a.y < b.y || (a.y = b.y && (a.m < b.m || (a.m = b.m && a.d < b.d)))

/-- The fields of a video record that the filters inspect.
`duration` is `video_data.get('duration', 0)`, `views` is
`video_data.get('stats', {}).get('views', 0)`, `createdAt` is the parsed
`created_at` date (`none` models a missing/falsy value). -/
structure VideoData where
  duration : ℕ
  views : ℕ
  createdAt : Option PyDate
  description : List Char
  hashtags : List (List Char)

/-- The CLI arguments consulted by `apply_video_filters`.  The numeric
fields model Python's truthiness test `if args.x and ...`: 0 plays the
role of the falsy `None`/`0`.  `createdAfter` is the parsed
`--created-after` date. -/
structure FilterArgs where
  minDuration : ℕ
  maxDuration : ℕ
  minViews : ℕ
  createdAfter : Option PyDate
  noFilter : Bool
  minDescLength : ℕ

/-- The `try`/`except` wrapper of `apply_video_filters`
(`tiktok_scraper.py` lines 650-652): an exception keeps the video. -/
def applyVideoFiltersTry (r : Except PyErr Bool) : Bool :=
  match r with
  | .ok b => b
  | .error _ => true

/-- The body of `apply_video_filters`: duration window, view floor,
creation-date filter (discarding also when the date is missing), then the
meaningful-description check unless `--no-filter` is set. -/
def applyVideoFiltersBody (video : VideoData) (args : FilterArgs)
    (searchTerm : List Char) : Bool :=
  if args.minDuration ≠ 0 ∧ video.duration < args.minDuration then false
  else if args.maxDuration ≠ 0 ∧ args.maxDuration < video.duration then false
  else if args.minViews ≠ 0 ∧ video.views < args.minViews then false
  else if (match args.createdAfter, video.createdAt with
           | some fd, some vd => !dateLtB fd vd
           | some _, none => true
           | none, _ => false) then false
  else if args.noFilter = false ∧
      isMeaningfulDescription (cleanDescription video.description) searchTerm
        args.minDescLength = false then false
  else true

/-- `apply_video_filters` (`tiktok_scraper.py` lines 596-652). -/
def applyVideoFilters (video : VideoData) (args : FilterArgs)
    (searchTerm : List Char) : Bool :=
  applyVideoFiltersTry (Except.ok (applyVideoFiltersBody video args searchTerm))

/-- C5: `apply_video_filters` keeps a video exactly when every enabled
filter passes: duration at least `min_duration` and at most
`max_duration` when those are set, views at least `min_views` when set,
creation date present and strictly after `created_after` when that is
set, and the cleaned description meaningful unless `no_filter` is set. -/
theorem c5_apply_video_filters (video : VideoData) (args : FilterArgs)
    (searchTerm : List Char) :
    applyVideoFilters video args searchTerm = true ↔
      ((args.minDuration ≠ 0 → args.minDuration ≤ video.duration) ∧
        (args.maxDuration ≠ 0 → video.duration ≤ args.maxDuration) ∧
        (args.minViews ≠ 0 → args.minViews ≤ video.views) ∧
        (∀ fd, args.createdAfter = some fd →
          ∃ vd, video.createdAt = some vd ∧ dateLtB fd vd = true) ∧
        (args.noFilter = false →
          isMeaningfulDescription (cleanDescription video.description) searchTerm
            args.minDescLength = true)) := by
  unfold applyVideoFilters applyVideoFiltersTry applyVideoFiltersBody
  rcases hca : args.createdAfter with _ | fd <;>
    rcases hva : video.createdAt with _ | vd <;>
      split_ifs with h1 h2 h3 h4 h5 <;>
        constructor <;> intro hyp <;> simp_all <;> omega

/-- C8: the three guarded functions fail without propagating: on an
internal exception `is_meaningful_content` returns `True`,
`apply_video_filters` returns `True` (both fail open), and
`calculate_video_relevance` returns the zero-score, not-relevant record
(fails closed). -/
theorem c8_exception_defaults (e : PyErr) :
    isMeaningfulContentTry (Except.error e) = true ∧
      applyVideoFiltersTry (Except.error e) = true ∧
      calculateVideoRelevanceTry (Except.error e) =
        ⟨0, false, 0, 0⟩ :=
  ⟨rfl, rfl, rfl⟩

-- ### comment pagination (tiktok_scraper.py lines 162-298)

/-- `pyStrip` is idempotent. -/
theorem dropWhile_eq_self_of_head {p : Char → Bool} {l : List Char}
    (h : ∀ c, l.head? = some c → p c = false) : l.dropWhile p = l := by
  cases l with
  | nil => rfl
  | cons c rest =>
    have := h c rfl
    rw [List.dropWhile_cons_of_neg (by simp [this])]

theorem pyStrip_idem (l : List Char) : pyStrip (pyStrip l) = pyStrip l := by
  unfold pyStrip
  have h1 : (pyStrip l).dropWhile isWs = pyStrip l :=
    dropWhile_eq_self_of_head (fun c hc => pyStrip_head_not_ws l hc)
  have h2 : (pyStrip l).reverse.dropWhile isWs = (pyStrip l).reverse := by
    refine dropWhile_eq_self_of_head (fun c hc => ?_)
    rw [List.head?_reverse] at hc
    exact pyStrip_getLast_not_ws l hc
  show stripEnd ((pyStrip l).dropWhile isWs) = pyStrip l
  rw [h1]
  unfold stripEnd
  rw [h2]
  simp

/-- One kept comment of the pagination loop: the stripped text, the
1-based global position (`comment_index`) and the 1-based batch number at
the time the comment was collected. -/
structure CommentRec where
  text : List Char
  commentIndex : ℕ
  batchNumber : ℕ
deriving DecidableEq

/-- The pagination loop of `get_all_video_comments_paginated` over the
stream of raw comment texts yielded by the SDK iterator.  `total` and
`batch` are the loop's `total_processed` and `batch_count` accumulators.
Returns the kept comments and the number of anti-rate-limit sleeps.  A
comment is kept when its stripped text has at least 2 characters; after
every `batchSize`-th kept comment the loop sleeps `delay` seconds (when
`delay > 0`); the loop breaks once `maxTotal` (when nonzero) kept
comments are collected.  Reply collection is independent of the claim and
is not modelled. -/
def paginateGo (batchSize : ℕ) (delay : ℚ) (maxTotal : ℕ) :
    List (List Char) → ℕ → ℕ → List CommentRec × ℕ
  | [], _, _ => ([], 0)
  | raw :: rest, total, batch =>
    if 2 ≤ (pyStrip raw).length then
      (if maxTotal ≠ 0 ∧ maxTotal ≤ total + 1 then
        ([⟨pyStrip raw, total + 1, batch + 1⟩],
          if (total + 1) % batchSize = 0 ∧ 0 < delay then 1 else 0)
      else
        (⟨pyStrip raw, total + 1, batch + 1⟩ ::
            (paginateGo batchSize delay maxTotal rest (total + 1)
              (if (total + 1) % batchSize = 0 then batch + 1 else batch)).1,
          (if (total + 1) % batchSize = 0 ∧ 0 < delay then 1 else 0) +
            (paginateGo batchSize delay maxTotal rest (total + 1)
              (if (total + 1) % batchSize = 0 then batch + 1 else batch)).2))
    else paginateGo batchSize delay maxTotal rest total batch

/-- `get_all_video_comments_paginated` over a stream of raw comment
texts.  `batchSize = 0` models the `ZeroDivisionError` of
`total_processed % batch_size`, caught by the outer `except`, which
returns the empty list. -/
def paginate (stream : List (List Char)) (batchSize : ℕ) (delay : ℚ)
    (maxTotal : ℕ) : List CommentRec × ℕ :=
  if batchSize = 0 then ([], 0)
  else paginateGo batchSize delay maxTotal stream 0 0

theorem paginateGo_length_le (batchSize : ℕ) (delay : ℚ) (maxTotal : ℕ) :
    ∀ (stream : List (List Char)) (total batch : ℕ),
      maxTotal ≠ 0 → total < maxTotal →
      (paginateGo batchSize delay maxTotal stream total batch).1.length ≤
        maxTotal - total := by
  intro stream
  induction stream with
  | nil => intro total batch _ _; simp [paginateGo]
  | cons raw rest ih =>
    intro total batch hm ht
    rw [paginateGo]
    by_cases hkeep : 2 ≤ (pyStrip raw).length
    · rw [if_pos hkeep]
      by_cases hbreak : maxTotal ≠ 0 ∧ maxTotal ≤ total + 1
      · rw [if_pos hbreak]
        simp
        omega
      · rw [if_neg hbreak]
        have ht1 : total + 1 < maxTotal := by omega
        have := ih (total + 1)
          (if (total + 1) % batchSize = 0 then batch + 1 else batch) hm ht1
        simp only [List.length_cons]
        omega
    · rw [if_neg hkeep]
      exact ih total batch hm ht

theorem paginateGo_text_ok (batchSize : ℕ) (delay : ℚ) (maxTotal : ℕ) :
    ∀ (stream : List (List Char)) (total batch : ℕ),
      ∀ r ∈ (paginateGo batchSize delay maxTotal stream total batch).1,
        pyStrip r.text = r.text ∧ 2 ≤ r.text.length := by
  intro stream
  induction stream with
  | nil => intro total batch r hr; simp [paginateGo] at hr
  | cons raw rest ih =>
    intro total batch r hr
    rw [paginateGo] at hr
    by_cases hkeep : 2 ≤ (pyStrip raw).length
    · rw [if_pos hkeep] at hr
      by_cases hbreak : maxTotal ≠ 0 ∧ maxTotal ≤ total + 1
      · rw [if_pos hbreak] at hr
        simp at hr
        subst hr
        exact ⟨pyStrip_idem raw, hkeep⟩
      · rw [if_neg hbreak] at hr
        simp only [List.mem_cons] at hr
        rcases hr with hr | hr
        · subst hr
          exact ⟨pyStrip_idem raw, hkeep⟩
        · exact ih _ _ r hr
    · rw [if_neg hkeep] at hr
      exact ih total batch r hr

theorem succ_div_eq (B t : ℕ) (hb : B ≠ 0) :
    (t + 1) / B = t / B + (if (t + 1) % B = 0 then 1 else 0) := by
  rw [Nat.succ_div]
  by_cases h : B ∣ t + 1
  · rw [if_pos h, if_pos (Nat.dvd_iff_mod_eq_zero.mp h)]
  · rw [if_neg h, if_neg (fun hc => h (Nat.dvd_iff_mod_eq_zero.mpr hc))]

theorem paginateGo_sleeps (batchSize : ℕ) (delay : ℚ) (maxTotal : ℕ)
    (hb : batchSize ≠ 0) (hd : 0 < delay) :
    ∀ (stream : List (List Char)) (total batch : ℕ),
      (paginateGo batchSize delay maxTotal stream total batch).2 + total / batchSize =
        (total +
          (paginateGo batchSize delay maxTotal stream total batch).1.length) / batchSize := by
  intro stream
  induction stream with
  | nil => intro total batch; simp [paginateGo]
  | cons raw rest ih =>
    intro total batch
    rw [paginateGo]
    by_cases hkeep : 2 ≤ (pyStrip raw).length
    · rw [if_pos hkeep]
      have hstep := succ_div_eq batchSize total hb
      by_cases hbreak : maxTotal ≠ 0 ∧ maxTotal ≤ total + 1
      · rw [if_pos hbreak]
        simp only [List.length_cons, List.length_nil, Nat.zero_add]
        by_cases hhit : (total + 1) % batchSize = 0
        · rw [if_pos (show (total + 1) % batchSize = 0 ∧ 0 < delay from ⟨hhit, hd⟩)]
          rw [if_pos hhit] at hstep
          omega
        · rw [if_neg (by simp [hhit])]
          rw [if_neg hhit] at hstep
          omega
      · rw [if_neg hbreak]
        have hrec := ih (total + 1)
          (if (total + 1) % batchSize = 0 then batch + 1 else batch)
        set L := (paginateGo batchSize delay maxTotal rest (total + 1)
          (if (total + 1) % batchSize = 0 then batch + 1 else batch)).1.length with hL
        set S := (paginateGo batchSize delay maxTotal rest (total + 1)
          (if (total + 1) % batchSize = 0 then batch + 1 else batch)).2 with hS
        simp only [List.length_cons]
        have harith : total + (L + 1) = total + 1 + L := by omega
        rw [harith]
        by_cases hhit : (total + 1) % batchSize = 0
        · rw [if_pos (show (total + 1) % batchSize = 0 ∧ 0 < delay from ⟨hhit, hd⟩)]
          rw [if_pos hhit] at hstep
          omega
        · rw [if_neg (by simp [hhit])]
          rw [if_neg hhit] at hstep
          omega
    · rw [if_neg hkeep]
      exact ih total batch

/-- C2: with a positive limit `maxTotal`, the pagination loop returns at
most `maxTotal` comments; every returned comment text is stripped and has
at least 2 characters; and with a positive delay, one sleep is performed
after every `batchSize`-th kept comment (so the number of sleeps is the
number of completed batches). -/
theorem c2_paginated_comments (stream : List (List Char)) (batchSize maxTotal : ℕ)
    (delay : ℚ) (hb : batchSize ≠ 0) (hm : 1 ≤ maxTotal) (hd : 0 < delay) :
    (paginate stream batchSize delay maxTotal).1.length ≤ maxTotal ∧
      (∀ r ∈ (paginate stream batchSize delay maxTotal).1,
        pyStrip r.text = r.text ∧ 2 ≤ r.text.length) ∧
      (paginate stream batchSize delay maxTotal).2 =
        (paginate stream batchSize delay maxTotal).1.length / batchSize := by
  unfold paginate
  rw [if_neg hb]
  refine ⟨?_, ?_, ?_⟩
  · have := paginateGo_length_le batchSize delay maxTotal stream 0 0 (by omega) (by omega)
    omega
  · exact paginateGo_text_ok batchSize delay maxTotal stream 0 0
  · have := paginateGo_sleeps batchSize delay maxTotal hb hd stream 0 0
    simpa using this

/-- Witness for `c2_paginated_comments` on a concrete stream: limit 3,
batch size 2, delay 2 seconds. -/
theorem c2_paginated_comments_witness :
    (paginate ["hello".toList, "x".toList, "  ab  ".toList, "this is long".toList,
        "more text".toList] 2 2 3).1.length ≤ 3 ∧
      (paginate ["hello".toList, "x".toList, "  ab  ".toList, "this is long".toList,
        "more text".toList] 2 2 3).2 =
      (paginate ["hello".toList, "x".toList, "  ab  ".toList, "this is long".toList,
        "more text".toList] 2 2 3).1.length / 2 := by
  refine ⟨?_, ?_⟩
  · exact (c2_paginated_comments ["hello".toList, "x".toList, "  ab  ".toList,
      "this is long".toList, "more text".toList] 2 3 2 (by decide) (by decide)
      (by norm_num)).1
  · exact (c2_paginated_comments ["hello".toList, "x".toList, "  ab  ".toList,
      "this is long".toList, "more text".toList] 2 3 2 (by decide) (by decide)
      (by norm_num)).2.2
-- ### file handlers (src/src/core/file_handlers.py)

/-- The search loop of `get_next_filename` (`file_handlers.py` lines
39-46): starting from 1, try counters until the file does not exist.  The
directory state is modelled as the list `taken` of counters whose file
`{output_dir}/{prefix}_#{counter}{extension}` already exists (filenames
with other shapes never collide with the generated ones).  Fuel
`taken.length + 1` always suffices by pigeonhole. -/
def nextFreeGo (taken : List ℕ) : ℕ → ℕ → ℕ
  | 0, k => k
  | fuel + 1, k => if k ∈ taken then nextFreeGo taken fuel (k + 1) else k

/-- `get_next_filename`, returning the chosen counter. -/
def getNextFilename (taken : List ℕ) : ℕ := nextFreeGo taken (taken.length + 1) 1

theorem range_subset_length {taken : List ℕ} {m : ℕ}
    (h : ∀ j, 1 ≤ j → j ≤ m → j ∈ taken) : m ≤ taken.length := by
  have hsub : Finset.Icc 1 m ⊆ taken.toFinset := by
    intro j hj
    rw [Finset.mem_Icc] at hj
    rw [List.mem_toFinset]
    exact h j hj.1 hj.2
  have hcard := Finset.card_le_card hsub
  have h1 : (Finset.Icc 1 m).card = m := by
    rw [Nat.card_Icc]
    omega
  have h2 : taken.toFinset.card ≤ taken.length := taken.toFinset_card_le
  omega

theorem nextFreeGo_ok (taken : List ℕ) :
    ∀ (fuel k : ℕ), 1 ≤ k →
      (∀ j, 1 ≤ j → j < k → j ∈ taken) →
      taken.length + 1 ≤ fuel + (k - 1) →
      (1 ≤ nextFreeGo taken fuel k ∧
        nextFreeGo taken fuel k ∉ taken ∧
        ∀ j, 1 ≤ j → j < nextFreeGo taken fuel k → j ∈ taken) := by
  intro fuel
  induction fuel with
  | zero =>
    intro k hk hbelow hfuel
    exfalso
    have : k - 1 ≤ taken.length :=
      range_subset_length (fun j h1 h2 => hbelow j h1 (by omega))
    omega
  | succ fuel ih =>
    intro k hk hbelow hfuel
    rw [nextFreeGo]
    by_cases hmem : k ∈ taken
    · rw [if_pos hmem]
      have hbelow' : ∀ j, 1 ≤ j → j < k + 1 → j ∈ taken := by
        intro j h1 h2
        by_cases hjk : j = k
        · subst hjk; exact hmem
        · exact hbelow j h1 (by omega)
      exact ih (k + 1) (by omega) hbelow' (by omega)
    · rw [if_neg hmem]
      exact ⟨hk, hmem, hbelow⟩

/-- C9: `get_next_filename` returns the smallest positive counter whose
file does not already exist, so a save never overwrites an existing
output file: the chosen counter is at least 1, is not taken, and every
smaller positive counter is taken. -/
theorem c9_get_next_filename (taken : List ℕ) :
    1 ≤ getNextFilename taken ∧ getNextFilename taken ∉ taken ∧
      ∀ j, 1 ≤ j → j < getNextFilename taken → j ∈ taken := by
  exact nextFreeGo_ok taken (taken.length + 1) 1 le_rfl
    (fun j h1 h2 => absurd h2 (by omega)) (by omega)

/-- One line written by `save_videos_jsonl` (`file_handlers.py` lines
60-74): the video record's own fields (`base`, kept opaque; the metadata
keys would overwrite homonymous record keys) plus the collection
metadata. -/
structure JsonlLine (α : Type) where
  base : α
  collectionTime : List Char
  searchType : List Char
  searchTerm : List Char
  fileNumber : ℕ
  format : List Char
deriving DecidableEq

/-- `save_videos_jsonl` (`file_handlers.py` lines 19-81): an empty video
list writes no file and returns `None`; otherwise a fresh filename
counter is chosen and one JSON line per video is written, in order, each
carrying the shared collection metadata.  `collectionTime` stands for
`datetime.now().isoformat()`. -/
def saveVideosJsonl {α : Type} (videos : List α) (taken : List ℕ)
    (collectionTime searchType searchTerm : List Char) :
    Option (ℕ × List (JsonlLine α)) :=
  match videos with
  | [] => none
  | _ :: _ =>
    some (getNextFilename taken,
      videos.map fun v =>
        ⟨v, collectionTime, searchType, searchTerm, getNextFilename taken,
          "jsonl".toList⟩)

/-- C6: `save_videos_jsonl` returns `None` (writing nothing) exactly on
an empty input list; otherwise it writes exactly one line per input
record, in input order, each line being that record plus the collection
metadata (collection time, search type, search term, fresh file number,
format `"jsonl"`). -/
theorem c6_save_videos_jsonl {α : Type} (videos : List α) (taken : List ℕ)
    (ctime stype sterm : List Char) :
    (saveVideosJsonl videos taken ctime stype sterm = none ↔ videos = []) ∧
      ∀ k lines, saveVideosJsonl videos taken ctime stype sterm = some (k, lines) →
        (lines.map (fun ln => ln.base) = videos ∧
          lines.length = videos.length ∧
          k = getNextFilename taken ∧
          k ∉ taken ∧
          ∀ ln ∈ lines, ln.collectionTime = ctime ∧ ln.searchType = stype ∧
            ln.searchTerm = sterm ∧ ln.fileNumber = k ∧ ln.format = "jsonl".toList) := by
  cases videos with
  | nil =>
    refine ⟨by simp [saveVideosJsonl], ?_⟩
    intro k lines h
    exact absurd h (by simp [saveVideosJsonl])
  | cons v vs =>
    refine ⟨by simp [saveVideosJsonl], ?_⟩
    intro k lines h
    rw [saveVideosJsonl] at h
    have hk : k = getNextFilename taken := by
      have := congrArg (fun o => o.map Prod.fst) h
      simpa using this.symm
    have hlines : lines = (v :: vs).map fun x =>
        (⟨x, ctime, stype, sterm, getNextFilename taken, "jsonl".toList⟩ :
          JsonlLine α) := by
      have := congrArg (fun o => o.map Prod.snd) h
      simpa using this.symm
    subst hk
    subst hlines
    refine ⟨?_, by simp, rfl, (c9_get_next_filename taken).2.1, ?_⟩
    · rw [List.map_map]
      have hcomp : ((fun ln => JsonlLine.base ln) ∘ fun x =>
          (⟨x, ctime, stype, sterm, getNextFilename taken, "jsonl".toList⟩ :
            JsonlLine α)) = id := by
        funext x
        rfl
      rw [hcomp, List.map_id]
    · intro ln hln
      obtain ⟨x, _, hx2⟩ := List.mem_map.mp hln
      rw [← hx2]
      exact ⟨rfl, rfl, rfl, rfl, rfl⟩

/-- Witness for `c6_save_videos_jsonl`: two records, counters 1 and 2
taken, so the file number is 3. -/
theorem c6_save_videos_jsonl_witness :
    (saveVideosJsonl [0, 1] [1, 2] [] [] [] = none ↔ ([0, 1] : List ℕ) = []) ∧
      ([(⟨0, [], [], [], 3, "jsonl".toList⟩ : JsonlLine ℕ),
          ⟨1, [], [], [], 3, "jsonl".toList⟩].map (fun ln => ln.base) = [0, 1] ∧
        (3 : ℕ) ∉ ([1, 2] : List ℕ)) := by
  refine ⟨(c6_save_videos_jsonl [0, 1] [1, 2] [] [] []).1, ?_⟩
  have h := (c6_save_videos_jsonl [0, 1] [1, 2] [] [] []).2 3
    [⟨0, [], [], [], 3, "jsonl".toList⟩, ⟨1, [], [], [], 3, "jsonl".toList⟩]
    (by decide)
  exact ⟨h.1, h.2.2.2.1⟩

/-- The CLI switches consulted by `save_and_upload_videos`
(`file_handlers.py` lines 279-336).  `s3Uri` models the truthiness of
`args.s3_uri`. -/
structure UploadArgs where
  s3Uri : Bool
  s3AutoUpload : Bool
  s3Only : Bool

/-- The observable file-system and S3 actions of
`save_and_upload_videos`, in order. -/
inductive FileEv
  | savedLocal (path : ℕ)
  | uploadAttempt (path : ℕ) (ok : Bool)
  | removedLocal (path : ℕ)
deriving DecidableEq

/-- `save_and_upload_videos` (`file_handlers.py` lines 279-336): the
local save always happens first (its outcome is the oracle `saveResult`,
`none` modelling a failed `save_videos_*`); an S3 upload (outcome oracle
`uploadOk`) is attempted only when both `s3_uri` and `s3_auto_upload` are
set; the local file is removed only in `s3_only` mode after a successful
upload.  Returns the `(local_file_path, s3_upload_success)` pair and the
action trace. -/
def saveAndUploadVideos {α : Type} (videos : List α) (args : UploadArgs)
    (saveResult : Option ℕ) (uploadOk : Bool) : (Option ℕ × Bool) × List FileEv :=
  match videos with
  | [] => ((none, false), [])
  | _ :: _ =>
    match saveResult with
    | none => ((none, false), [])
    | some p =>
      if args.s3Uri && args.s3AutoUpload then
        (if uploadOk then
          (if args.s3Only then
            ((some p, true),
              [FileEv.savedLocal p, FileEv.uploadAttempt p true, FileEv.removedLocal p])
          else ((some p, true), [FileEv.savedLocal p, FileEv.uploadAttempt p true]))
        else ((some p, false), [FileEv.savedLocal p, FileEv.uploadAttempt p false]))
      else ((some p, false), [FileEv.savedLocal p])

/-- C7: `save_and_upload_videos` saves locally first and uploads only
when both `s3_uri` and `s3_auto_upload` are set; when the upload fails or
is not requested the local file is retained; the local file is removed
only when `s3_only` is set and the upload succeeded; and on an empty list
or a failed local save it returns `(None, False)` and performs no
further action. -/
theorem c7_save_and_upload_videos {α : Type} (videos : List α) (args : UploadArgs)
    (saveResult : Option ℕ) (uploadOk : Bool) :
    ((videos = [] ∨ saveResult = none) →
        saveAndUploadVideos videos args saveResult uploadOk = ((none, false), [])) ∧
      (∀ p ok, FileEv.uploadAttempt p ok ∈ (saveAndUploadVideos videos args saveResult uploadOk).2 →
        args.s3Uri = true ∧ args.s3AutoUpload = true ∧ saveResult = some p ∧
          ok = uploadOk ∧
          (saveAndUploadVideos videos args saveResult uploadOk).2.head? =
            some (FileEv.savedLocal p)) ∧
      (∀ p, FileEv.removedLocal p ∈ (saveAndUploadVideos videos args saveResult uploadOk).2 →
        args.s3Only = true ∧ uploadOk = true ∧
          FileEv.uploadAttempt p true ∈ (saveAndUploadVideos videos args saveResult uploadOk).2) ∧
      ((args.s3Uri = false ∨ args.s3AutoUpload = false ∨ uploadOk = false) →
        ∀ p, FileEv.removedLocal p ∉ (saveAndUploadVideos videos args saveResult uploadOk).2) ∧
      (∀ p, saveResult = some p → videos ≠ [] →
        (saveAndUploadVideos videos args saveResult uploadOk).1.1 = some p ∧
          (saveAndUploadVideos videos args saveResult uploadOk).2.head? =
            some (FileEv.savedLocal p)) := by
  obtain ⟨u, a, o⟩ := args
  cases videos with
  | nil => simp [saveAndUploadVideos]
  | cons v vs =>
    cases saveResult with
    | none => simp [saveAndUploadVideos]
    | some p =>
      cases u <;> cases a <;> cases o <;> cases uploadOk <;>
        simp [saveAndUploadVideos]

/-- Witness for `c7_save_and_upload_videos`: nonempty list, successful
save and upload with `s3_only` unset, so the file is kept. -/
theorem c7_save_and_upload_videos_witness :
    (saveAndUploadVideos [0] ⟨true, true, false⟩ (some 7) true).1.1 = some 7 ∧
      (saveAndUploadVideos ([] : List ℕ) ⟨true, true, false⟩ (some 7) true =
        ((none, false), [])) ∧
      (∀ p, FileEv.removedLocal p ∉
        (saveAndUploadVideos [0] ⟨true, true, true⟩ (some 7) false).2) := by
  refine ⟨?_, ?_, ?_⟩
  · exact ((c7_save_and_upload_videos [0] ⟨true, true, false⟩ (some 7) true).2.2.2.2
      7 rfl (by simp)).1
  · exact (c7_save_and_upload_videos ([] : List ℕ) ⟨true, true, false⟩ (some 7)
      true).1 (Or.inl rfl)
  · exact (c7_save_and_upload_videos [0] ⟨true, true, true⟩ (some 7) false).2.2.2.1
      (Or.inr (Or.inr rfl))

-- ### validate_dates (src/src/core/date_utils.py lines 10-59)

/-- ASCII digit test. -/
def isDigitCh (c : Char) : Bool := '0' ≤ c && c ≤ '9'

/-- Numeric value of an ASCII digit. -/
def digVal (c : Char) : ℕ := c.toNat - '0'.toNat

/-- Gregorian leap-year rule used by `datetime`. -/
def isLeap (y : ℕ) : Bool := y % 4 = 0 && (y % 100 ≠ 0 || y % 400 = 0)

/-- Days in a month, as validated by the `datetime` constructor. -/
def daysInMonth (y m : ℕ) : ℕ :=
  if m = 2 then (if isLeap y then 29 else 28)
  else if m = 4 ∨ m = 6 ∨ m = 9 ∨ m = 11 then 30
  else 31

/-- Month-then-dash parser following CPython's `_strptime` regex for
`%m-`: the alternatives `1[0-2]|0[1-9]|[1-9]` followed by the literal
`-`.  The two-digit alternatives are tried first; when they match but the
dash does not follow, the one-digit alternative cannot rescue the parse
because the next character is a digit. -/
def parseMonthDash : List Char → Option (ℕ × List Char)
  | x :: y :: rest =>
    if (x = '1' ∧ isDigitCh y ∧ digVal y ≤ 2) ∨
        (x = '0' ∧ isDigitCh y ∧ 1 ≤ digVal y) then
      (match rest with
       | '-' :: r2 => some (10 * digVal x + digVal y, r2)
       | _ => none)
    else if isDigitCh x ∧ 1 ≤ digVal x ∧ y = '-' then some (digVal x, rest)
    else none
  | _ => none

/-- Day-at-end-of-string parser following CPython's `_strptime` regex for
`%d` at the end of the format: `3[01]|[12]\d|0[1-9]|[1-9]` followed by
the end of the string (`strptime` rejects unconverted data). -/
def parseDayEnd : List Char → Option ℕ
  | [x, y] =>
    if (x = '3' ∧ (y = '0' ∨ y = '1')) ∨
        ((x = '1' ∨ x = '2') ∧ isDigitCh y) ∨
        (x = '0' ∧ isDigitCh y ∧ 1 ≤ digVal y) then
      some (10 * digVal x + digVal y)
    else none
  | [x] => if isDigitCh x ∧ 1 ≤ digVal x then some (digVal x) else none
  | _ => none

/-- `datetime.strptime(s, '%Y-%m-%d')` followed by the `datetime`
constructor's range checks: exactly four digits of year (with year 0
rejected, `datetime.MINYEAR` being 1), a dash, the month, a dash, the day
(validated against the month's length, leap years included). -/
def parseYMD (l : List Char) : Option PyDate :=
  match l with
  | a :: b :: c :: d :: '-' :: rest =>
    if isDigitCh a ∧ isDigitCh b ∧ isDigitCh c ∧ isDigitCh d then
      (match parseMonthDash rest with
       | some (m, rest2) =>
         (match parseDayEnd rest2 with
          | some dd =>
            (if 1 ≤ 1000 * digVal a + 100 * digVal b + 10 * digVal c + digVal d ∧
                dd ≤ daysInMonth
                  (1000 * digVal a + 100 * digVal b + 10 * digVal c + digVal d) m then
              some ⟨1000 * digVal a + 100 * digVal b + 10 * digVal c + digVal d, m, dd⟩
            else none)
          | none => none)
       | none => none)
    else none
  | _ => none

/-- The ASCII digit character for a value below 10. -/
def digitCh (n : ℕ) : Char := Char.ofNat ('0'.toNat + n)

/-- Two-digit zero-padded decimal rendering (`strftime` `%m`, `%d`). -/
def pad2 (n : ℕ) : List Char := [digitCh (n / 10 % 10), digitCh (n % 10)]

/-- Four-digit zero-padded decimal rendering (`strftime` `%Y`). -/
def pad4 (n : ℕ) : List Char :=
  [digitCh (n / 1000 % 10), digitCh (n / 100 % 10), digitCh (n / 10 % 10),
    digitCh (n % 10)]

/-- `date.strftime('%Y-%m-%d')`. -/
def fmtDate (dt : PyDate) : List Char :=
  pad4 dt.y ++ '-' :: (pad2 dt.m ++ '-' :: pad2 dt.d)

/-- `validate_dates` (`date_utils.py` lines 10-59) with both date strings
supplied (an omitted end date uses the wall clock, outside this model):
any `ValueError` — an unparsable date or `start >= end` — is caught and
`(None, None)` returned; otherwise the parsed dates are re-formatted as
zero-padded ISO strings with the fixed time suffixes. -/
def validateDates (startStr endStr : List Char) :
    Option (List Char) × Option (List Char) :=
  match parseYMD startStr, parseYMD endStr with
  | some d1, some d2 =>
    if dateLtB d1 d2 then
      (some (fmtDate d1 ++ "T00:00:00Z".toList),
        some (fmtDate d2 ++ "T23:59:59Z".toList))
    else (none, none)
  | _, _ => (none, none)

theorem digVal_le_nine {c : Char} (h : isDigitCh c = true) : digVal c ≤ 9 := by
  rw [isDigitCh, Bool.and_eq_true, decide_eq_true_eq, decide_eq_true_eq] at h
  have h2 := h.2
  rw [Char.le_def, UInt32.le_def] at h2
  have : c.toNat ≤ 57 := by simpa [Char.toNat, UInt32.toNat] using h2
  unfold digVal
  have h0 : '0'.toNat = 48 := rfl
  omega

theorem digVal_ge (c : Char) (h : isDigitCh c = true) : 48 ≤ c.toNat := by
  rw [isDigitCh, Bool.and_eq_true, decide_eq_true_eq, decide_eq_true_eq] at h
  have h1 := h.1
  rw [Char.le_def, UInt32.le_def] at h1
  simpa [Char.toNat, UInt32.toNat] using h1

theorem digit_roundtrip {c : Char} (h : isDigitCh c = true) :
    digitCh (digVal c) = c := by
  have h48 := digVal_ge c h
  unfold digitCh digVal
  rw [show '0'.toNat = 48 from rfl]
  rw [show 48 + (c.toNat - 48) = c.toNat by omega]
  exact Char.ofNat_toNat c

theorem pad2_of_two_digits {x y : Char} (hx : isDigitCh x = true)
    (hy : isDigitCh y = true) : pad2 (10 * digVal x + digVal y) = [x, y] := by
  have hx9 := digVal_le_nine hx
  have hy9 := digVal_le_nine hy
  unfold pad2
  have e1 : (10 * digVal x + digVal y) / 10 % 10 = digVal x := by omega
  have e2 : (10 * digVal x + digVal y) % 10 = digVal y := by omega
  rw [e1, e2, digit_roundtrip hx, digit_roundtrip hy]

theorem pad4_of_four_digits {a b c d : Char} (ha : isDigitCh a = true)
    (hb : isDigitCh b = true) (hc : isDigitCh c = true) (hd : isDigitCh d = true) :
    pad4 (1000 * digVal a + 100 * digVal b + 10 * digVal c + digVal d) =
      [a, b, c, d] := by
  have ha9 := digVal_le_nine ha
  have hb9 := digVal_le_nine hb
  have hc9 := digVal_le_nine hc
  have hd9 := digVal_le_nine hd
  unfold pad4
  have e1 : (1000 * digVal a + 100 * digVal b + 10 * digVal c + digVal d) / 1000 % 10
      = digVal a := by omega
  have e2 : (1000 * digVal a + 100 * digVal b + 10 * digVal c + digVal d) / 100 % 10
      = digVal b := by omega
  have e3 : (1000 * digVal a + 100 * digVal b + 10 * digVal c + digVal d) / 10 % 10
      = digVal c := by omega
  have e4 : (1000 * digVal a + 100 * digVal b + 10 * digVal c + digVal d) % 10
      = digVal d := by omega
  rw [e1, e2, e3, e4, digit_roundtrip ha, digit_roundtrip hb, digit_roundtrip hc,
    digit_roundtrip hd]

theorem parseMonthDash_shape {rest : List Char} {m : ℕ} {rest2 : List Char}
    (h : parseMonthDash rest = some (m, rest2)) :
    1 ≤ m ∧ m ≤ 12 ∧
      ((∃ x y, rest = x :: y :: '-' :: rest2 ∧ isDigitCh x = true ∧
          isDigitCh y = true ∧ pad2 m = [x, y]) ∨
        (∃ x, rest = x :: '-' :: rest2 ∧ isDigitCh x = true ∧ m = digVal x)) := by
  cases rest with
  | nil => exact absurd h (by simp [parseMonthDash])
  | cons x rest1 =>
    cases rest1 with
    | nil => exact absurd h (by simp [parseMonthDash])
    | cons y rest' =>
      by_cases h1 : (x = '1' ∧ isDigitCh y = true ∧ digVal y ≤ 2) ∨
          (x = '0' ∧ isDigitCh y = true ∧ 1 ≤ digVal y)
      · cases rest' with
        | nil => simp [parseMonthDash, h1] at h
        | cons z r2 =>
          by_cases hz : z = '-'
          · subst hz
            rw [show parseMonthDash (x :: y :: '-' :: r2) =
                some (10 * digVal x + digVal y, r2) by simp [parseMonthDash, h1]] at h
            simp only [Option.some_inj, Prod.mk.injEq] at h
            obtain ⟨hm, hr⟩ := h
            subst hr
            have hxd : isDigitCh x = true := by
              rcases h1 with ⟨hx, _⟩ | ⟨hx, _⟩ <;> subst hx <;> decide
            have hyd : isDigitCh y = true := by
              rcases h1 with ⟨_, hy, _⟩ | ⟨_, hy, _⟩ <;> exact hy
            have hy9 := digVal_le_nine hyd
            refine ⟨?_, ?_,
              Or.inl ⟨x, y, rfl, hxd, hyd, by
                rw [← hm]; exact pad2_of_two_digits hxd hyd⟩⟩
            · rcases h1 with ⟨hx, _, _⟩ | ⟨hx, _, hy1⟩ <;> subst hx <;>
                first
                | (rw [show digVal '1' = 1 from rfl] at hm; omega)
                | (rw [show digVal '0' = 0 from rfl] at hm; omega)
            · rcases h1 with ⟨hx, _, hy2⟩ | ⟨hx, _, _⟩ <;> subst hx <;>
                first
                | (rw [show digVal '1' = 1 from rfl] at hm; omega)
                | (rw [show digVal '0' = 0 from rfl] at hm; omega)
          · simp [parseMonthDash, h1, hz] at h
      · by_cases h2 : isDigitCh x = true ∧ 1 ≤ digVal x ∧ y = '-'
        · obtain ⟨hxd, hx1, hy⟩ := h2
          subst hy
          have hfalse : ¬((x = '1' ∧ isDigitCh '-' = true ∧ digVal '-' ≤ 2) ∨
              (x = '0' ∧ isDigitCh '-' = true ∧ 1 ≤ digVal '-')) := by
            intro hcon
            rcases hcon with ⟨_, hd2, _⟩ | ⟨_, hd2, _⟩ <;> exact absurd hd2 (by decide)
          simp only [parseMonthDash.eq_def] at h
          rw [if_neg hfalse, if_pos ⟨hxd, hx1, trivial⟩] at h
          simp only [Option.some_inj, Prod.mk.injEq] at h
          obtain ⟨hm, hr⟩ := h
          subst hr
          have hx9 := digVal_le_nine hxd
          exact ⟨by omega, by omega, Or.inr ⟨x, rfl, hxd, hm.symm⟩⟩
        · simp [parseMonthDash, h1, h2] at h

theorem parseDayEnd_shape {r : List Char} {dd : ℕ} (h : parseDayEnd r = some dd) :
    1 ≤ dd ∧ dd ≤ 31 ∧
      ((∃ x y, r = [x, y] ∧ isDigitCh x = true ∧ isDigitCh y = true ∧
          pad2 dd = [x, y]) ∨
        (∃ x, r = [x] ∧ isDigitCh x = true ∧ dd = digVal x)) := by
  cases r with
  | nil => exact absurd h (by simp [parseDayEnd])
  | cons x r1 =>
    cases r1 with
    | nil =>
      simp only [parseDayEnd.eq_def] at h
      split_ifs at h with hc
      · simp only [Option.some_inj] at h
        obtain ⟨hxd, hx1⟩ := hc
        have hx9 := digVal_le_nine hxd
        exact ⟨by omega, by omega, Or.inr ⟨x, rfl, hxd, h.symm⟩⟩
    | cons y r2 =>
      cases r2 with
      | nil =>
        simp only [parseDayEnd.eq_def] at h
        split_ifs at h with hc
        · simp only [Option.some_inj] at h
          have hxd : isDigitCh x = true := by
            rcases hc with ⟨hx, _⟩ | ⟨hx, _⟩ | ⟨hx, _⟩
            · subst hx; decide
            · rcases hx with hx | hx <;> subst hx <;> decide
            · subst hx; decide
          have hyd : isDigitCh y = true := by
            rcases hc with ⟨_, hy⟩ | ⟨_, hy⟩ | ⟨_, hy, _⟩
            · rcases hy with hy | hy <;> subst hy <;> decide
            · exact hy
            · exact hy
          have hy9 := digVal_le_nine hyd
          refine ⟨?_, ?_, Or.inl ⟨x, y, rfl, hxd, hyd, by
            rw [← h]; exact pad2_of_two_digits hxd hyd⟩⟩
          · rcases hc with ⟨hx, _⟩ | ⟨hx, _⟩ | ⟨hx, _, hy1⟩
            · subst hx
              rw [show digVal '3' = 3 from rfl] at h
              omega
            · rcases hx with hx | hx <;> subst hx <;>
                first
                | (rw [show digVal '1' = 1 from rfl] at h; omega)
                | (rw [show digVal '2' = 2 from rfl] at h; omega)
            · subst hx
              rw [show digVal '0' = 0 from rfl] at h
              omega
          · rcases hc with ⟨hx, hy⟩ | ⟨hx, _⟩ | ⟨hx, _, _⟩
            · subst hx
              rw [show digVal '3' = 3 from rfl] at h
              rcases hy with hy | hy <;> subst hy <;>
                first
                | (rw [show digVal '0' = 0 from rfl] at h; omega)
                | (rw [show digVal '1' = 1 from rfl] at h; omega)
            · rcases hx with hx | hx <;> subst hx <;>
                first
                | (rw [show digVal '1' = 1 from rfl] at h; omega)
                | (rw [show digVal '2' = 2 from rfl] at h; omega)
            · subst hx
              rw [show digVal '0' = 0 from rfl] at h
              omega
      | cons z r3 => exact absurd h (by simp [parseDayEnd])

theorem parseYMD_canonical {s : List Char} {dt : PyDate}
    (h : parseYMD s = some dt) (hlen : s.length = 10) : fmtDate dt = s := by
  rcases s with _ | ⟨c0, _ | ⟨c1, _ | ⟨c2, _ | ⟨c3, _ | ⟨c4, rest5⟩⟩⟩⟩⟩
  · simp at hlen
  · simp at hlen
  · simp at hlen
  · simp at hlen
  · simp at hlen
  · by_cases hc4 : c4 = '-'
    · subst hc4
      simp only [parseYMD.eq_def] at h
      split_ifs at h with hdig
      · obtain ⟨hd0, hd1, hd2, hd3⟩ := hdig
        split at h
        next m rest2 heqM =>
          split at h
          next ddv heqD =>
            split_ifs at h with hrange
            · simp only [Option.some_inj] at h
              subst h
              have hr5 : rest5.length = 5 := by
                simp at hlen
                omega
              obtain ⟨hm1, hm2, hmshape⟩ := parseMonthDash_shape heqM
              obtain ⟨hdd1, hdd2, hddshape⟩ := parseDayEnd_shape heqD
              rcases hmshape with ⟨x, y, hrest, hxd, hyd, hpadm⟩ | ⟨x, hrest, hxd, hmval⟩
              · subst hrest
                have hr2 : rest2.length = 2 := by
                  simp at hr5
                  omega
                rcases hddshape with ⟨u, v, hrest2, hud, hvd, hpadd⟩ | ⟨u, hrest2, hud, hdv⟩
                · subst hrest2
                  have hpad4 := pad4_of_four_digits hd0 hd1 hd2 hd3
                  simp only [fmtDate, hpad4, hpadm, hpadd]
                  rfl
                · subst hrest2
                  simp at hr2
              · subst hrest
                have hr2 : rest2.length = 3 := by
                  simp at hr5
                  omega
                rcases hddshape with ⟨u, v, hrest2, _, _, _⟩ | ⟨u, hrest2, _, _⟩ <;>
                  subst hrest2 <;> simp at hr2
          next => exact absurd h (by simp)
        next => exact absurd h (by simp)
    · exfalso
      have hnone : parseYMD (c0 :: c1 :: c2 :: c3 :: c4 :: rest5) = none := by
        simp only [parseYMD.eq_def]
        split
        next a b c d rest heq =>
          exfalso
          have : c4 = '-' := by
            have := congrArg (fun l => l.get? 4) heq
            simpa using this
          exact hc4 this
        next => rfl
      rw [hnone] at h
      exact absurd h (by simp)

/-- C10 counterexample: the claim fails on the code.  `strptime` with
`%Y-%m-%d` accepts the non-zero-padded `2025-6-1`, and the returned ISO
string is the re-formatted `2025-06-01T00:00:00Z`, which is not the input
with `T00:00:00Z` appended; so on this input the function neither returns
`(None, None)` nor the appended pair the claim describes. -/
theorem c10_counterexample :
    validateDates "2025-6-1".toList "2025-6-2".toList =
        (some "2025-06-01T00:00:00Z".toList, some "2025-06-02T23:59:59Z".toList) ∧
      "2025-06-01T00:00:00Z".toList ≠ "2025-6-1".toList ++ "T00:00:00Z".toList := by
  exact ⟨by decide, by decide⟩

/-- C10 (amended): `validate_dates` never raises: it returns
`(None, None)` whenever the start or the supplied end string is not
accepted by `strptime('%Y-%m-%d')` (four-digit year, one- or two-digit
month and day in range, day valid for the month) or when the parsed start
is not strictly before the parsed end (equal dates rejected); otherwise
it returns the parsed dates re-formatted as zero-padded `YYYY-MM-DD` with
`T00:00:00Z` and `T23:59:59Z` appended — which equals appending the
suffix to the input exactly when the input is already zero-padded
(length 10). -/
theorem c10_validate_dates (s e : List Char) :
    ((parseYMD s = none ∨ parseYMD e = none) → validateDates s e = (none, none)) ∧
      (∀ d1 d2, parseYMD s = some d1 → parseYMD e = some d2 →
        ((dateLtB d1 d2 = false → validateDates s e = (none, none)) ∧
          (dateLtB d1 d2 = true →
            validateDates s e =
              (some (fmtDate d1 ++ "T00:00:00Z".toList),
                some (fmtDate d2 ++ "T23:59:59Z".toList))))) ∧
      (∀ d1, parseYMD s = some d1 → s.length = 10 → fmtDate d1 = s) := by
  refine ⟨?_, ?_, ?_⟩
  · intro hcase
    unfold validateDates
    rcases hcase with h1 | h1
    · rw [h1]
    · rw [h1]
      cases parseYMD s <;> rfl
  · intro d1 d2 h1 h2
    unfold validateDates
    rw [h1, h2]
    dsimp only
    constructor
    · intro hlt
      rw [if_neg (by simp [hlt])]
    · intro hlt
      rw [if_pos hlt]
  · intro d1 h1 hlen
    exact parseYMD_canonical h1 hlen

/-- Witness for `c10_validate_dates`: an invalid day, a valid ordered
pair, and an equal pair. -/
theorem c10_validate_dates_witness :
    validateDates "2025-06-32".toList "2025-07-01".toList = (none, none) ∧
      validateDates "2025-06-01".toList "2025-06-02".toList =
        (some "2025-06-01T00:00:00Z".toList, some "2025-06-02T23:59:59Z".toList) ∧
      validateDates "2025-06-02".toList "2025-06-02".toList = (none, none) := by
  refine ⟨?_, ?_, ?_⟩
  · exact (c10_validate_dates "2025-06-32".toList "2025-07-01".toList).1
      (Or.inl (by decide))
  · have h := ((c10_validate_dates "2025-06-01".toList "2025-06-02".toList).2.1
      ⟨2025, 6, 1⟩ ⟨2025, 6, 2⟩ (by decide) (by decide)).2 (by decide)
    rw [h]
    decide
  · exact ((c10_validate_dates "2025-06-02".toList "2025-06-02".toList).2.1
      ⟨2025, 6, 2⟩ ⟨2025, 6, 2⟩ (by decide) (by decide)).1 (by decide)
